import Mathlib

/-!
Verification development for the dynamodb-datamodel core: a shallow embedding of
`ExpressionAttributes` (the name/value interning table), `Table` request-parameter
builders, `Model.splitTableData`, and — where the repository ships only tests for a
component — models of the update-clause compiler and the split-key field taken from
the specification.

Conventions of the embedding:
* JavaScript objects are insertion-ordered association lists `List (String × α)`;
  property read is first-match lookup, property write overwrites in place or appends.
* JavaScript strings are Lean `String`s; `split`, `join`, `substring`, `indexOf` and
  `endsWith` are modelled at the character-list level.
* The template-literal decimal rendering of a counter is `natDec`, a fuel-based
  decimal printer for naturals.
-/

/-! ### Decimal rendering of counters -/

/-- One decimal digit as a character (model of JS number-to-string digits). -/
def digitChar (d : Nat) : Char :=
  match d with
  | 0 => '0'
  | 1 => '1'
  | 2 => '2'
  | 3 => '3'
  | 4 => '4'
  | 5 => '5'
  | 6 => '6'
  | 7 => '7'
  | 8 => '8'
  | 9 => '9'
  | _ => '*'

/-- Inverse of `digitChar` on decimal digits. -/
def digitVal (c : Char) : Nat :=
  match c with
  | '0' => 0
  | '1' => 1
  | '2' => 2
  | '3' => 3
  | '4' => 4
  | '5' => 5
  | '6' => 6
  | '7' => 7
  | '8' => 8
  | '9' => 9
  | _ => 0

/-- Fuel-based little worker for `natDec`; fuel is structurally decreasing. -/
def natDecAux (fuel : Nat) (n : Nat) : List Char :=
  match fuel with
  | 0 => []
  | f + 1 => if n < 10 then [digitChar n] else natDecAux f (n / 10) ++ [digitChar (n % 10)]

/-- Decimal string of a natural number, as JS template interpolation renders a counter. -/
def natDec (n : Nat) : String :=
  String.mk (natDecAux (n + 1) n)

/-- Decimal value of a digit string, used to invert `natDec`. -/
def natVal (l : List Char) : Nat :=
  l.foldl (fun a c => a * 10 + digitVal c) 0

/-! ### JS objects as insertion-ordered association lists -/

/-- Property read on a JS object: first binding for the key, if any. -/
def lookupKey {α : Type} : List (String × α) → String → Option α
  | [], _ => none
  | p :: rest, k => if p.1 = k then some p.2 else lookupKey rest k

/-- Does the object already have a binding for this key? -/
def hasKey {α : Type} (m : List (String × α)) (k : String) : Bool :=
  m.any (fun p => p.1 == k)

/-- Property write on a JS object: overwrite an existing binding in place, else append. -/
def setKey {α : Type} (m : List (String × α)) (k : String) (v : α) : List (String × α) :=
  if hasKey m k then m.map (fun p => if p.1 == k then (k, v) else p) else m ++ [(k, v)]

/-- The JS `delete` operator on an object binding. -/
def eraseKey {α : Type} (m : List (String × α)) (k : String) : List (String × α) :=
  m.filter (fun p => !(p.1 == k))

/-! ### JS string primitives at the character level -/

/-- Model of JS `String.prototype.split` with a one-character separator. -/
def splitChar (sep : Char) : List Char → List (List Char)
  | [] => [[]]
  | c :: rest =>
    match splitChar sep rest with
    | [] => [[]]
    | t :: ts => if c = sep then [] :: t :: ts else (c :: t) :: ts

/-- Model of JS `Array.prototype.join` with a one-character separator. -/
def joinChar (sep : Char) : List (List Char) → List Char
  | [] => []
  | [x] => x
  | x :: y :: ys => x ++ sep :: joinChar sep (y :: ys)

/-- `String`-level wrapper for `splitChar`. -/
def jsSplit (sep : Char) (s : String) : List String :=
  (splitChar sep s.data).map String.mk

/-- `String`-level wrapper for `joinChar`. -/
def jsJoin (sep : Char) (l : List String) : String :=
  String.mk (joinChar sep (l.map String.data))

/-- Model of JS `substring(0, n)`. -/
def strTake (s : String) (n : Nat) : String :=
  String.mk (s.data.take n)

/-- Model of JS `substring(n)`. -/
def strDrop (s : String) (n : Nat) : String :=
  String.mk (s.data.drop n)

/-- Model of JS `endsWith` with a one-character argument. -/
def endsWithChar (c : Char) (s : String) : Bool :=
  s.data.getLast? == some c

/-- Model of JS `indexOf` with a one-character argument; `none` models `-1`. -/
def idxOfChar (c : Char) : List Char → Option Nat
  | [] => none
  | x :: xs => if x = c then some 0 else (idxOfChar c xs).map (· + 1)

/-- `String`-level wrapper for `idxOfChar`. -/
def strIdxOf (c : Char) (s : String) : Option Nat :=
  idxOfChar c s.data

/-! ### Attribute values (`Table.AttributeValues`) -/

/-- The table-side attribute value union of `Table.ts`: null, string, number, boolean,
binary, the three set kinds, list and map.  Numbers are modelled as integers; no claim
depends on numeric semantics. -/
inductive AttrValue : Type where
  | nul : AttrValue
  | str : String → AttrValue
  | num : Int → AttrValue
  | bool : Bool → AttrValue
  | bin : List Nat → AttrValue
  | strSet : List String → AttrValue
  | numSet : List Int → AttrValue
  | binSet : List (List Nat) → AttrValue
  | list : List AttrValue → AttrValue
  | map : List (String × AttrValue) → AttrValue

/-! ### `ExpressionAttributes` (src/unnamed/part_000) -/

/-- State of one `ExpressionAttributes` instance: the two predicates, the path switch,
the alias→raw-name map with its counter, and the alias→value map with its counter.
Field initializers mirror the source's property initializers. -/
structure ExpressionAttributes : Type where
  isReservedName : String → Bool := fun _ => false
  isValidName : String → Bool := fun _ => false
  treatNameAsPath : Bool := true
  names : List (String × String) := []
  nextName : Nat := 0
  values : List (String × AttrValue) := []
  nextValue : Nat := 0

/-- A freshly constructed `ExpressionAttributes` (`new ExpressionAttributes()`). -/
def initEA : ExpressionAttributes := {}

/-- The `for (const key in names) if (names[key] === name) return key` search:
first alias already mapped to the raw name. -/
def lookupAliasFor : List (String × String) → String → Option String
  | [], _ => none
  | p :: rest, name => if p.2 = name then some p.1 else lookupAliasFor rest name

/-- `ExpressionAttributes.addName`: reserved names get alias `#<name>`; otherwise, unless
the name is marked valid, reuse an alias already mapped to the name or allocate the next
`#n<seq>`; valid names are returned unchanged. -/
def ExpressionAttributes.addName (ea : ExpressionAttributes) (name : String) :
    String × ExpressionAttributes :=
  if ea.isReservedName name then
    let attName := "#" ++ name
    (attName, { ea with names := setKey ea.names attName name })
  else if !(ea.isValidName name) then
    match lookupAliasFor ea.names name with
    | some key => (key, ea)
    | none =>
      let attName := "#n" ++ natDec ea.nextName
      (attName,
        { ea with names := setKey ea.names attName name, nextName := ea.nextName + 1 })
  else
    (name, ea)

/-- One step of the `reduce` inside `addPath`: a segment ending in `]` has only the part
before the first `[` aliased and the bracket part re-appended (JS `indexOf` returning
`-1` makes `substring(0,-1)` empty and `substring(-1)` the whole segment); any other
segment is aliased whole. -/
def addSegStep (acc : List String × ExpressionAttributes) (curr : String) :
    List String × ExpressionAttributes :=
  if endsWithChar ']' curr then
    match strIdxOf '[' curr with
    | some i =>
      let r := acc.2.addName (strTake curr i)
      (acc.1 ++ [r.1 ++ strDrop curr i], r.2)
    | none =>
      let r := acc.2.addName ""
      (acc.1 ++ [r.1 ++ curr], r.2)
  else
    let r := acc.2.addName curr
    (acc.1 ++ [r.1], r.2)

/-- `ExpressionAttributes.addPath`: split on `.`, alias each segment via `addSegStep`,
join with `.`; with `treatNameAsPath` off, alias the whole string as one name. -/
def ExpressionAttributes.addPath (ea : ExpressionAttributes) (name : String) :
    String × ExpressionAttributes :=
  if ea.treatNameAsPath then
    let res := (jsSplit '.' name).foldl addSegStep ([], ea)
    (jsJoin '.' res.1, res.2)
  else
    ea.addName name

/-- `ExpressionAttributes.addValue`: always allocate the fresh alias `:v<nextValue>`. -/
def ExpressionAttributes.addValue (ea : ExpressionAttributes) (value : AttrValue) :
    String × ExpressionAttributes :=
  let name := ":v" ++ natDec ea.nextValue
  (name, { ea with values := setKey ea.values name value, nextValue := ea.nextValue + 1 })

/-- `ExpressionAttributes.getPaths`. -/
def ExpressionAttributes.getPaths (ea : ExpressionAttributes) : List (String × String) :=
  ea.names

/-- `ExpressionAttributes.getValues`. -/
def ExpressionAttributes.getValues (ea : ExpressionAttributes) : List (String × AttrValue) :=
  ea.values

/-- `ExpressionAttributes.reset`. -/
def ExpressionAttributes.reset (ea : ExpressionAttributes) : ExpressionAttributes :=
  { ea with names := [], nextName := 0, values := [], nextValue := 0 }


/-! ### Request parameter objects -/

/-- Values stored in a request-params object: strings (`TableName`, expressions),
attribute maps (`Key`, `Item`, `ExpressionAttributeValues`) and the alias→name map
(`ExpressionAttributeNames`). -/
inductive ParamValue : Type where
  | str : String → ParamValue
  | attrMap : List (String × AttrValue) → ParamValue
  | nameMap : List (String × String) → ParamValue

/-- A request-params object, field order observable as in a JS object literal. -/
abbrev Params : Type := List (String × ParamValue)

/-- The object literal `{ ...a, ...b }` on attribute maps: entries of `b` assigned over
a copy of `a` in order. -/
def spreadMerge (a b : List (String × AttrValue)) : List (String × AttrValue) :=
  b.foldl (fun acc p => setKey acc p.1 p.2) a

/-- `ExpressionAttributes.addParams`: attach the names map when non-empty, then the
values map when non-empty. -/
def ExpressionAttributes.addParams (ea : ExpressionAttributes) (input : Params) : Params :=
  let input1 :=
    if ea.names.length > 0 then setKey input "ExpressionAttributeNames" (.nameMap ea.names)
    else input
  if ea.values.length > 0 then setKey input1 "ExpressionAttributeValues" (.attrMap ea.values)
  else input1

/-! ### Table topology (src/src/Table.ts) -/

/-- `'HASH' | 'RANGE'` key types. -/
inductive KeyType : Type where
  | hash : KeyType
  | range : KeyType
deriving DecidableEq

/-- The key schema of a table: attribute name to key type, in declaration order. -/
abbrev KeySchema : Type := List (String × KeyType)

/-- `getKeyName`: first key-schema entry of the wanted type, or the empty string. -/
def getKeyName (keySchema : KeySchema) (t : KeyType) : String :=
  match keySchema.find? (fun p => p.2 == t) with
  | some p => p.1
  | none => ""

/-- The slice of `Table` state the request builders read: its name and key schema. -/
structure Table : Type where
  name : String
  keySchema : KeySchema

/-- `Table.getPartitionKey`. -/
def Table.getPartitionKey (t : Table) : String :=
  getKeyName t.keySchema KeyType.hash

/-- `Table.getSortKey`. -/
def Table.getSortKey (t : Table) : String :=
  getKeyName t.keySchema KeyType.range

/-! ### Conditions (modelled) -/

/-- Modelled from the spec: `Condition.ts` is not under `src/`.  A condition resolver
consumes the shared interning table and yields an expression string. -/
def Cond : Type := ExpressionAttributes → String × ExpressionAttributes

/-- Modelled from the spec: `Condition.exists(path)` resolves to an
`attribute_exists` check on the aliased path. -/
def condExists (path : String) : Cond :=
  fun ea => let r := ea.addPath path; ("attribute_exists(" ++ r.1 ++ ")", r.2)

/-- Modelled from the spec: `Condition.notExists(path)` resolves to an
`attribute_not_exists` check on the aliased path. -/
def condNotExists (path : String) : Cond :=
  fun ea => let r := ea.addPath path; ("attribute_not_exists(" ++ r.1 ++ ")", r.2)

/-- Modelled from the spec: `Condition.addAndParam` — with no conditions it touches
nothing; otherwise it resolves each condition through the interner, joins with `AND`,
and sets only the `ConditionExpression` field. -/
def Condition.addAndParam (conds : List Cond) (ea : ExpressionAttributes) (params : Params) :
    ExpressionAttributes × Params :=
  match conds with
  | [] => (ea, params)
  | _ =>
    let r := conds.foldl
      (fun (acc : List String × ExpressionAttributes) c =>
        let s := c acc.2
        (acc.1 ++ [s.1], s.2))
      ([], ea)
    (r.2, setKey params "ConditionExpression" (.str (String.intercalate " AND " r.1)))

/-! ### Update directives and the clause compiler (modelled) -/

/-- Modelled from the spec: the flat update directives of `Update.ts` (not under
`src/`).  Nested `Map` directives recurse path-prefixed and are omitted here; every
clause kind is represented. -/
inductive Directive : Type where
  | setV : AttrValue → Directive
  | inc : Option String → AttrValue → Directive
  | dec : AttrValue → Directive
  | del : Directive
  | pathRef : String → Directive
  | prependL : AttrValue → Directive
  | appendL : AttrValue → Directive
  | addToSet : AttrValue → Directive
  | removeFromSet : AttrValue → Directive

/-- The four clause kinds of the update expression grammar. -/
inductive ClauseKind : Type where
  | setK : ClauseKind
  | removeK : ClauseKind
  | addK : ClauseKind
  | deleteK : ClauseKind
deriving DecidableEq

/-- Clause kind a directive compiles into, per the spec's operation→clause table. -/
def directiveKind : Directive → ClauseKind
  | .setV _ => .setK
  | .inc _ _ => .setK
  | .dec _ => .setK
  | .pathRef _ => .setK
  | .prependL _ => .setK
  | .appendL _ => .setK
  | .del => .removeK
  | .addToSet _ => .addK
  | .removeFromSet _ => .deleteK

/-- Number of directives of one clause kind in an update record. -/
def countKind (m : List (String × Directive)) (k : ClauseKind) : Nat :=
  (m.filter (fun pd => directiveKind pd.2 == k)).length

/-- The four clause buffers accumulated by the update compiler. -/
structure ClauseBuffers : Type where
  setB : List String := []
  removeB : List String := []
  addB : List String := []
  deleteB : List String := []

/-- Modelled from the spec: compile one `(path, directive)` pair, appending exactly one
fragment to the buffer of its clause kind and interning names/values in visit order. -/
def compileDirective (path : String) (d : Directive) (ea : ExpressionAttributes)
    (b : ClauseBuffers) : ClauseBuffers × ExpressionAttributes :=
  match d with
  | .setV v =>
    let p := ea.addPath path
    let va := p.2.addValue v
    ({ b with setB := b.setB ++ [p.1 ++ " = " ++ va.1] }, va.2)
  | .inc none v =>
    let p := ea.addPath path
    let va := p.2.addValue v
    ({ b with setB := b.setB ++ [p.1 ++ " = " ++ p.1 ++ " + " ++ va.1] }, va.2)
  | .inc (some src) v =>
    let p := ea.addPath path
    let sa := p.2.addPath src
    let va := sa.2.addValue v
    ({ b with setB := b.setB ++ [p.1 ++ " = " ++ sa.1 ++ " + " ++ va.1] }, va.2)
  | .dec v =>
    let p := ea.addPath path
    let va := p.2.addValue v
    ({ b with setB := b.setB ++ [p.1 ++ " = " ++ p.1 ++ " - " ++ va.1] }, va.2)
  | .del =>
    let p := ea.addPath path
    ({ b with removeB := b.removeB ++ [p.1] }, p.2)
  | .pathRef q =>
    let p := ea.addPath path
    let qa := p.2.addPath q
    ({ b with setB := b.setB ++ [p.1 ++ " = " ++ qa.1] }, qa.2)
  | .prependL v =>
    let p := ea.addPath path
    let va := p.2.addValue v
    ({ b with setB := b.setB ++ [p.1 ++ " = list_append(" ++ va.1 ++ ", " ++ p.1 ++ ")"] },
      va.2)
  | .appendL v =>
    let p := ea.addPath path
    let va := p.2.addValue v
    ({ b with setB := b.setB ++ [p.1 ++ " = list_append(" ++ p.1 ++ ", " ++ va.1 ++ ")"] },
      va.2)
  | .addToSet v =>
    let p := ea.addPath path
    let va := p.2.addValue v
    ({ b with addB := b.addB ++ [p.1 ++ " " ++ va.1] }, va.2)
  | .removeFromSet v =>
    let p := ea.addPath path
    let va := p.2.addValue v
    ({ b with deleteB := b.deleteB ++ [p.1 ++ " " ++ va.1] }, va.2)

/-- An update record: ordered `(attribute path, directive)` pairs. -/
abbrev UpdateMap : Type := List (String × Directive)

/-- Modelled from the spec: compile a record's directives in supply order into the four
clause buffers. -/
def compileUpdate (m : UpdateMap) (ea : ExpressionAttributes) :
    ClauseBuffers × ExpressionAttributes :=
  m.foldl (fun acc pd => compileDirective pd.1 pd.2 acc.2 acc.1) ({}, ea)

/-- Join strings with a separator string. -/
def joinWith (sep : String) : List String → String
  | [] => ""
  | [x] => x
  | x :: y :: ys => x ++ sep ++ joinWith sep (y :: ys)

/-- A non-empty clause buffer becomes one `KEYWORD entry, entry` piece; an empty buffer
contributes nothing. -/
def clausePart (kw : String) (es : List String) : List String :=
  match es with
  | [] => []
  | _ => [kw ++ " " ++ joinWith ", " es]

/-- Modelled from the spec: the final update expression concatenates the non-empty
clause buffers in fixed SET, REMOVE, ADD, DELETE order, space-separated. -/
def buildUpdateExpression (b : ClauseBuffers) : String :=
  joinWith " "
    (clausePart "SET" b.setB ++ clausePart "REMOVE" b.removeB ++
      clausePart "ADD" b.addB ++ clausePart "DELETE" b.deleteB)

/-- Modelled from the spec: `Update.addParam` — compile the update map through the
shared interner and set only the `UpdateExpression` field, and only when some clause
buffer is non-empty. -/
def Update.addParam (item : Option UpdateMap) (ea : ExpressionAttributes) (params : Params) :
    ExpressionAttributes × Params :=
  match item with
  | none => (ea, params)
  | some m =>
    let r := compileUpdate m ea
    if r.1.setB.isEmpty && r.1.removeB.isEmpty && r.1.addB.isEmpty && r.1.deleteB.isEmpty
    then (r.2, params)
    else (r.2, setKey params "UpdateExpression" (.str (buildUpdateExpression r.1)))

/-! ### Request builders (src/src/Table.ts) -/

/-- `Table.GetOptions` (the slice `getParams` reads). -/
structure GetOptions : Type where
  params : Params := []

/-- `Table.DeleteOptions`. -/
structure DeleteOptions : Type where
  params : Params := []
  attributes : Option ExpressionAttributes := none
  conditions : List Cond := []

/-- `'Always' | 'Exists' | 'NotExists'` put write options. -/
inductive PutWriteOptions : Type where
  | always : PutWriteOptions
  | existsCheck : PutWriteOptions
  | notExistsCheck : PutWriteOptions

/-- `Table.PutOptions`. -/
structure PutOptions : Type where
  params : Params := []
  attributes : Option ExpressionAttributes := none
  conditions : List Cond := []
  writeOptions : PutWriteOptions := .always

/-- `Table.UpdateOptions`. -/
structure UpdateOptions : Type where
  params : Params := []
  attributes : Option ExpressionAttributes := none
  conditions : List Cond := []

/-- `Table.getParams`: `{ ...options.params, TableName: this.name, Key: key }`. -/
def Table.getParams (t : Table) (key : List (String × AttrValue))
    (options : GetOptions := {}) : Params :=
  setKey (setKey options.params "TableName" (.str t.name)) "Key" (.attrMap key)

/-- `Table.deleteParams`. -/
def Table.deleteParams (t : Table) (key : List (String × AttrValue))
    (options : DeleteOptions := {}) : Params :=
  let params := setKey (setKey options.params "TableName" (.str t.name)) "Key" (.attrMap key)
  let attributes := options.attributes.getD initEA
  let r := Condition.addAndParam options.conditions attributes params
  r.1.addParams r.2

/-- `Table.getPutCondition`. -/
def Table.getPutCondition (t : Table) (options : PutWriteOptions) : Option Cond :=
  match options with
  | .existsCheck => some (condExists t.getPartitionKey)
  | .notExistsCheck => some (condNotExists t.getPartitionKey)
  | .always => none

/-- `Table.putParams`: `{ ...options.params, TableName: this.name, Item: {...key, ...item} }`
plus the optional put condition and the interner's maps. -/
def Table.putParams (t : Table) (key : List (String × AttrValue))
    (item : List (String × AttrValue)) (options : PutOptions := {}) : Params :=
  let params :=
    setKey (setKey options.params "TableName" (.str t.name)) "Item"
      (.attrMap (spreadMerge key item))
  let conditions :=
    match t.getPutCondition options.writeOptions with
    | some c => options.conditions ++ [c]
    | none => options.conditions
  let attributes := options.attributes.getD initEA
  let r := Condition.addAndParam conditions attributes params
  r.1.addParams r.2

/-- `Table.updateParams`: `{ ...options.params, TableName: this.name, Key: key }` plus
the compiled update expression, conditions and the interner's maps. -/
def Table.updateParams (t : Table) (key : List (String × AttrValue))
    (item : Option UpdateMap) (options : UpdateOptions := {}) : Params :=
  let params := setKey (setKey options.params "TableName" (.str t.name)) "Key" (.attrMap key)
  let attributes := options.attributes.getD initEA
  let r1 := Update.addParam item attributes params
  let r2 := Condition.addAndParam options.conditions r1.1 r1.2
  r2.1.addParams r2.2

/-! ### `Model.splitTableData` (src/src/Model.ts) -/

/-- `Model.splitTableData`: start from `key = {}` and `item = {...data}`; for each
key-schema attribute name present in `data`, move the entry from `item` to `key`. -/
def Model.splitTableData (t : Table) (data : List (String × AttrValue)) :
    List (String × AttrValue) × List (String × AttrValue) :=
  (t.keySchema.map Prod.fst).foldl
    (fun acc name =>
      match lookupKey data name with
      | none => acc
      | some v => (setKey acc.1 name v, eraseKey acc.2 name))
    ([], data)

/-! ### The split-key field (modelled) -/

/-- Modelled from the spec: the 2-attribute split-key `FieldSchema` (`Fields.ts` is not
under `src/`): two ordered table attribute names and a one-character separator,
defaulting to `.`. -/
structure SplitField : Type where
  attr1 : String
  attr2 : String
  sep : Char := '.'

/-- Modelled from the spec: `project` splits the model string by the separator; one
token writes only the first attribute; with two or more tokens all but the last are
re-joined into the first attribute and the last goes to the second. -/
def SplitField.project (f : SplitField) (s : String) : List (String × AttrValue) :=
  let toks := jsSplit f.sep s
  if toks.length ≤ 1 then [(f.attr1, .str s)]
  else
    [(f.attr1, .str (jsJoin f.sep toks.dropLast)),
      (f.attr2, .str (toks.getLastD ""))]

/-- Modelled from the spec: `extract` reads whichever of the two attributes are present,
in order, and joins their string values with the separator. -/
def SplitField.extract (f : SplitField) (m : List (String × AttrValue)) : Option String :=
  let parts := ([lookupKey m f.attr1, lookupKey m f.attr2].filterMap id).filterMap
    (fun v => match v with | AttrValue.str s => some s | _ => none)
  match parts with
  | [] => none
  | _ => some (jsJoin f.sep parts)

/-! ### Interner request sequences and proof-level views -/

/-- A request against one `ExpressionAttributes` instance. -/
inductive InternReq : Type where
  | name : String → InternReq
  | path : String → InternReq
  | value : AttrValue → InternReq

/-- Process one request, returning the alias string handed back to the caller. -/
def runReq (ea : ExpressionAttributes) : InternReq → String × ExpressionAttributes
  | .name n => ea.addName n
  | .path p => ea.addPath p
  | .value v => ea.addValue v

/-- Process a request sequence, keeping the final state. -/
def runReqs (ea : ExpressionAttributes) (l : List InternReq) : ExpressionAttributes :=
  l.foldl (fun s r => (runReq s r).2) ea

/-- The raw-name portion of one dotted segment (the argument `addName` receives). -/
def segName (seg : String) : String :=
  if endsWithChar ']' seg then
    match strIdxOf '[' seg with
    | some i => strTake seg i
    | none => ""
  else seg

/-- The verbatim bracket tail of one dotted segment (never aliased). -/
def segTail (seg : String) : String :=
  if endsWithChar ']' seg then
    match strIdxOf '[' seg with
    | some i => strDrop seg i
    | none => seg
  else ""

/-- Raw names requested by one request (segment names for a path request). -/
def reqNames : InternReq → List String
  | .name n => [n]
  | .path p => (jsSplit '.' p).map segName
  | .value _ => []

/-- Number of `addValue` calls a request sequence performs. -/
def countVals (l : List InternReq) : Nat :=
  (l.filter (fun r => match r with | .value _ => true | _ => false)).length

/-- The alias a state maps a raw name to (the name itself when unmapped). -/
def aliasOfD (ea : ExpressionAttributes) (n : String) : String :=
  (lookupAliasFor ea.names n).getD n

/-- One segment rendered with the aliases of a given state. -/
def segAliased (ea : ExpressionAttributes) (seg : String) : String :=
  aliasOfD ea (segName seg) ++ segTail seg

/-- Recursion form of one `addSegStep`. -/
def addSegOne (ea : ExpressionAttributes) (curr : String) : String × ExpressionAttributes :=
  if endsWithChar ']' curr then
    match strIdxOf '[' curr with
    | some i =>
      let r := ea.addName (strTake curr i)
      (r.1 ++ strDrop curr i, r.2)
    | none =>
      let r := ea.addName ""
      (r.1 ++ curr, r.2)
  else
    ea.addName curr

/-- Recursion form of the `addPath` fold over segments. -/
def addSegs (ea : ExpressionAttributes) : List String → List String × ExpressionAttributes
  | [] => ([], ea)
  | s :: ss =>
    let r := addSegOne ea s
    let rest := addSegs r.2 ss
    (r.1 :: rest.1, rest.2)

/-- The instance carries the source's default predicates (nothing reserved, nothing
valid) and default path mode. -/
def DefaultPreds (ea : ExpressionAttributes) : Prop :=
  (∀ n, ea.isReservedName n = false) ∧ (∀ n, ea.isValidName n = false) ∧
    ea.treatNameAsPath = true

/-- Well-formedness of the names map under default predicates: every alias is
`#n<i>` with `i` below the counter, and raw names are pairwise distinct. -/
def NamesInv (ea : ExpressionAttributes) : Prop :=
  (∀ q ∈ ea.names, ∃ i, i < ea.nextName ∧ q.1 = "#n" ++ natDec i) ∧
    (ea.names.map Prod.snd).Nodup

/-- Well-formedness of the values map: every alias is `:v<i>` with `i` below the
counter. -/
def ValuesInv (ea : ExpressionAttributes) : Prop :=
  ∀ q ∈ ea.values, ∃ i, i < ea.nextValue ∧ q.1 = ":v" ++ natDec i

/-- `ea₂` still answers every raw-name lookup `ea₁` answered, with the same alias. -/
def FutureOf (ea₁ ea₂ : ExpressionAttributes) : Prop :=
  ∀ n a, lookupAliasFor ea₁.names n = some a → lookupAliasFor ea₂.names n = some a

/-! ### Specification reading of `addPath` (refinement target) -/

/-- Specification wording for one segment: alias the part before an existing `[` and
re-append the bracket tail unchanged, else alias the whole segment.  A segment ending
in `]` without any `[` is outside the spec's wording and is returned unchanged here. -/
def specSegAlias (ea : ExpressionAttributes) (seg : String) : String × ExpressionAttributes :=
  if endsWithChar ']' seg then
    match strIdxOf '[' seg with
    | some i =>
      let r := ea.addName (strTake seg i)
      (r.1 ++ strDrop seg i, r.2)
    | none => (seg, ea)
  else
    ea.addName seg

/-- Specification wording for the segment pass: state-threaded map of `specSegAlias`
over the dot-split segments. -/
def specSegsMap (ea : ExpressionAttributes) : List String → List String × ExpressionAttributes
  | [] => ([], ea)
  | s :: ss =>
    let r := specSegAlias ea s
    let rest := specSegsMap r.2 ss
    (r.1 :: rest.1, rest.2)

/-- Specification wording of the whole `addPath` contract: split on `.`, alias each
segment, join with `.`; with path mode off, alias the entire string as one name. -/
def specAddPath (ea : ExpressionAttributes) (p : String) : String × ExpressionAttributes :=
  if ea.treatNameAsPath then
    let r := specSegsMap ea (jsSplit '.' p)
    (jsJoin '.' r.1, r.2)
  else
    ea.addName p

/-- The `#n<seq>` alias shape asserted by the reserved-name claim. -/
def seqAliasForm (s : String) : Prop :=
  ∃ k : Nat, s = "#n" ++ natDec k

/-! ## Theorems -/

/-! ### String and decimal basics -/

theorem strData_append (s t : String) : (s ++ t).data = s.data ++ t.data := by
  cases s; cases t; rfl

theorem str_append_empty (s : String) : s ++ "" = s := by
  apply String.ext
  rw [strData_append]
  exact List.append_nil _

theorem str_append_cancel_left {s a b : String} (h : s ++ a = s ++ b) : a = b := by
  apply String.ext
  have h2 := congrArg String.data h
  rw [strData_append, strData_append] at h2
  exact List.append_cancel_left h2

theorem digitVal_digitChar {d : Nat} (h : d < 10) : digitVal (digitChar d) = d := by
  interval_cases d <;> rfl

theorem natVal_append_digit (l : List Char) (c : Char) :
    natVal (l ++ [c]) = natVal l * 10 + digitVal c := by
  unfold natVal
  rw [List.foldl_append]
  rfl

theorem natVal_natDecAux : ∀ f n : Nat, n < f → natVal (natDecAux f n) = n := by
  intro f
  induction f with
  | zero => intro n h; omega
  | succ f ih =>
    intro n h
    unfold natDecAux
    by_cases h10 : n < 10
    · rw [if_pos h10]
      show (0 * 10 + digitVal (digitChar n)) = n
      rw [digitVal_digitChar h10]
      omega
    · rw [if_neg h10]
      rw [natVal_append_digit]
      have hd : n / 10 < f := by
        have := Nat.div_lt_self (show 0 < n by omega) (show 1 < 10 by omega)
        omega
      rw [ih _ hd, digitVal_digitChar (Nat.mod_lt _ (by omega))]
      omega

theorem natDec_inj {m n : Nat} (h : natDec m = natDec n) : m = n := by
  have hm := natVal_natDecAux (m + 1) m (by omega)
  have hn := natVal_natDecAux (n + 1) n (by omega)
  have hd : natDecAux (m + 1) m = natDecAux (n + 1) n := congrArg String.data h
  rw [hd] at hm
  omega

theorem append_natDec_inj {pre : String} {i j : Nat} (h : pre ++ natDec i = pre ++ natDec j) :
    i = j :=
  natDec_inj (str_append_cancel_left h)

/-! ### Association-list lemmas -/

theorem lookupKey_append_some {α : Type} {m : List (String × α)} {k : String} {v : α}
    (h : lookupKey m k = some v) (m' : List (String × α)) :
    lookupKey (m ++ m') k = some v := by
  induction m with
  | nil => simp [lookupKey] at h
  | cons p rest ih =>
    by_cases hk : p.1 = k
    · simp [lookupKey, hk] at h ⊢
      exact h
    · simp [lookupKey, hk] at h ⊢
      exact ih h

theorem lookupKey_append_right {α : Type} {m : List (String × α)} {k : String}
    (h : lookupKey m k = none) (m' : List (String × α)) :
    lookupKey (m ++ m') k = lookupKey m' k := by
  induction m with
  | nil => rfl
  | cons p rest ih =>
    by_cases hk : p.1 = k
    · simp [lookupKey, hk] at h
    · simp [lookupKey, hk] at h ⊢
      exact ih h

theorem lookupKey_eq_none_iff {α : Type} {m : List (String × α)} {k : String} :
    lookupKey m k = none ↔ ∀ p ∈ m, p.1 ≠ k := by
  induction m with
  | nil => simp [lookupKey]
  | cons p rest ih =>
    by_cases hk : p.1 = k
    · simp [lookupKey, hk]
    · simp [lookupKey, hk, ih]

theorem hasKey_eq_false_iff {α : Type} {m : List (String × α)} {k : String} :
    hasKey m k = false ↔ ∀ p ∈ m, p.1 ≠ k := by
  simp [hasKey, List.any_eq_false]

theorem setKey_of_hasKey_false {α : Type} {m : List (String × α)} {k : String}
    (h : hasKey m k = false) (v : α) : setKey m k v = m ++ [(k, v)] := by
  simp [setKey, h]

theorem lookupKey_cons {α : Type} (p : String × α) (l : List (String × α)) (q : String) :
    lookupKey (p :: l) q = if p.1 = q then some p.2 else lookupKey l q := rfl

theorem hasKey_cons {α : Type} (p : String × α) (l : List (String × α)) (k : String) :
    hasKey (p :: l) k = ((p.1 == k) || hasKey l k) := rfl

theorem lookupKey_overwrite {α : Type} (k : String) (v : α) :
    ∀ (m : List (String × α)) (q : String),
      lookupKey (m.map (fun p => if p.1 == k then (k, v) else p)) q =
        if q = k then (if hasKey m k then some v else none) else lookupKey m q := by
  intro m
  induction m with
  | nil =>
    intro q
    simp [lookupKey, hasKey]
  | cons p rest ih =>
    intro q
    cases hb : (p.1 == k) with
    | false =>
      have hkp : p.1 ≠ k := by simpa using hb
      simp only [List.map_cons, hb, Bool.false_eq_true, if_false, lookupKey_cons,
        hasKey_cons, Bool.false_or]
      by_cases hq : p.1 = q
      · have hqk : ¬q = k := by
          intro hc
          exact hkp (hq.trans hc)
        simp [hq, hqk]
      · simp only [if_neg hq]
        exact ih q
    | true =>
      have hkp : p.1 = k := by simpa using hb
      simp only [List.map_cons, hb, if_true, lookupKey_cons, hasKey_cons, Bool.true_or]
      by_cases hq : q = k
      · simp [hq]
      · have h1 : ¬(k = q) := fun hc => hq hc.symm
        have h2 : ¬(p.1 = q) := fun hc => h1 (hkp ▸ hc)
        simp only [if_neg h1, if_neg h2, if_neg hq]
        rw [ih q]
        simp [if_neg hq]

theorem lookupKey_setKey_self {α : Type} (m : List (String × α)) (k : String) (v : α) :
    lookupKey (setKey m k v) k = some v := by
  unfold setKey
  by_cases h : hasKey m k
  · rw [if_pos h, lookupKey_overwrite]
    simp [h]
  · rw [if_neg h]
    have hnone : lookupKey m k = none :=
      lookupKey_eq_none_iff.2 (hasKey_eq_false_iff.1 (by simpa using h))
    rw [lookupKey_append_right hnone]
    simp [lookupKey]

theorem lookupKey_setKey_ne {α : Type} (m : List (String × α)) (k : String) (v : α)
    {q : String} (h : q ≠ k) : lookupKey (setKey m k v) q = lookupKey m q := by
  unfold setKey
  by_cases hh : hasKey m k
  · rw [if_pos hh, lookupKey_overwrite]
    simp [h]
  · rw [if_neg hh]
    cases hm : lookupKey m q with
    | some v' => rw [lookupKey_append_some hm]
    | none =>
      rw [lookupKey_append_right hm]
      simp [lookupKey, Ne.symm h]

theorem lookupKey_eraseKey_self {α : Type} (m : List (String × α)) (k : String) :
    lookupKey (eraseKey m k) k = none := by
  induction m with
  | nil => rfl
  | cons p rest ih =>
    by_cases hk : p.1 = k
    · simpa [eraseKey, hk] using ih
    · simpa [eraseKey, lookupKey, hk] using ih

theorem lookupKey_eraseKey_ne {α : Type} (m : List (String × α)) (k : String)
    {q : String} (h : q ≠ k) : lookupKey (eraseKey m k) q = lookupKey m q := by
  induction m with
  | nil => rfl
  | cons p rest ih =>
    by_cases hk : p.1 = k
    · rw [show eraseKey (p :: rest) k = eraseKey rest k by simp [eraseKey, hk]]
      rw [ih]
      simp [lookupKey, hk ▸ Ne.symm h]
    · rw [show eraseKey (p :: rest) k = p :: eraseKey rest k by simp [eraseKey, hk]]
      by_cases hq : p.1 = q
      · simp [lookupKey, hq]
      · simp [lookupKey, hq, ih]

/-! ### Lemmas about the alias search -/

theorem lookupAliasFor_append_some {ns : List (String × String)} {n a : String}
    (h : lookupAliasFor ns n = some a) (ms : List (String × String)) :
    lookupAliasFor (ns ++ ms) n = some a := by
  induction ns with
  | nil => simp [lookupAliasFor] at h
  | cons p rest ih =>
    by_cases hp : p.2 = n
    · simp [lookupAliasFor, hp] at h ⊢
      exact h
    · simp [lookupAliasFor, hp] at h ⊢
      exact ih h

theorem lookupAliasFor_none_iff {ns : List (String × String)} {n : String} :
    lookupAliasFor ns n = none ↔ ∀ p ∈ ns, p.2 ≠ n := by
  induction ns with
  | nil => simp [lookupAliasFor]
  | cons p rest ih =>
    by_cases hp : p.2 = n
    · simp [lookupAliasFor, hp]
    · simp [lookupAliasFor, hp, ih]

theorem lookupAliasFor_append_right {ns : List (String × String)} {n : String}
    (h : lookupAliasFor ns n = none) (ms : List (String × String)) :
    lookupAliasFor (ns ++ ms) n = lookupAliasFor ms n := by
  induction ns with
  | nil => rfl
  | cons p rest ih =>
    by_cases hp : p.2 = n
    · simp [lookupAliasFor, hp] at h
    · simp [lookupAliasFor, hp] at h ⊢
      exact ih h

/-! ### Behaviour of `addName` under the default predicates -/

theorem addName_found {ea : ExpressionAttributes} {n a : String} (hd : DefaultPreds ea)
    (h : lookupAliasFor ea.names n = some a) : ea.addName n = (a, ea) := by
  simp [ExpressionAttributes.addName, hd.1 n, hd.2.1 n, h]

theorem addName_new {ea : ExpressionAttributes} {n : String} (hd : DefaultPreds ea)
    (hi : NamesInv ea) (h : lookupAliasFor ea.names n = none) :
    ea.addName n = ("#n" ++ natDec ea.nextName,
      { ea with
          names := ea.names ++ [("#n" ++ natDec ea.nextName, n)]
          nextName := ea.nextName + 1 }) := by
  have hfree : hasKey ea.names ("#n" ++ natDec ea.nextName) = false := by
    rw [hasKey_eq_false_iff]
    intro q hq
    obtain ⟨i, hlt, hq1⟩ := hi.1 q hq
    rw [hq1]
    intro hc
    exact absurd (append_natDec_inj hc) (by omega)
  simp [ExpressionAttributes.addName, hd.1 n, hd.2.1 n, h, setKey_of_hasKey_false hfree]

theorem addName_preds {ea : ExpressionAttributes} (n : String) (hd : DefaultPreds ea) :
    DefaultPreds (ea.addName n).2 := by
  cases h : lookupAliasFor ea.names n with
  | some a =>
    rw [addName_found hd h]
    exact hd
  | none =>
    unfold ExpressionAttributes.addName
    simp only [hd.1 n, hd.2.1 n, h, Bool.false_eq_true, if_false, Bool.not_false, if_true]
    exact ⟨hd.1, hd.2.1, hd.2.2⟩

theorem addName_inv {ea : ExpressionAttributes} (n : String) (hd : DefaultPreds ea)
    (hi : NamesInv ea) : NamesInv (ea.addName n).2 := by
  cases h : lookupAliasFor ea.names n with
  | some a =>
    rw [addName_found hd h]
    exact hi
  | none =>
    rw [addName_new hd hi h]
    unfold NamesInv
    dsimp only
    constructor
    · intro q hq
      rcases List.mem_append.1 hq with hq | hq
      · obtain ⟨i, hlt, hq1⟩ := hi.1 q hq
        exact ⟨i, by omega, hq1⟩
      · simp at hq
        exact ⟨ea.nextName, by omega, by rw [hq]⟩
    · have hnot : n ∉ ea.names.map Prod.snd := by
        intro hmem
        obtain ⟨q, hq, hq2⟩ := List.mem_map.1 hmem
        exact (lookupAliasFor_none_iff.1 h q hq) hq2
      simp only [List.map_append, List.map_cons, List.map_nil]
      rw [List.nodup_append]
      refine ⟨hi.2, List.nodup_singleton n, ?_⟩
      intro x hx hx2
      simp at hx2
      rw [hx2] at hx
      exact hnot hx

theorem addName_future {ea : ExpressionAttributes} (n : String) (hd : DefaultPreds ea)
    (hi : NamesInv ea) : FutureOf ea (ea.addName n).2 := by
  cases h : lookupAliasFor ea.names n with
  | some a =>
    rw [addName_found hd h]
    exact fun _ _ hx => hx
  | none =>
    rw [addName_new hd hi h]
    intro m b hb
    exact lookupAliasFor_append_some hb _

theorem addName_lookup_self {ea : ExpressionAttributes} (n : String) (hd : DefaultPreds ea)
    (hi : NamesInv ea) :
    lookupAliasFor ((ea.addName n).2).names n = some (ea.addName n).1 := by
  cases h : lookupAliasFor ea.names n with
  | some a =>
    rw [addName_found hd h]
    exact h
  | none =>
    rw [addName_new hd hi h]
    rw [lookupAliasFor_append_right h]
    simp [lookupAliasFor]

theorem addName_values (ea : ExpressionAttributes) (n : String) :
    (ea.addName n).2.values = ea.values ∧ (ea.addName n).2.nextValue = ea.nextValue := by
  unfold ExpressionAttributes.addName
  split
  · exact ⟨rfl, rfl⟩
  · split
    · split
      · exact ⟨rfl, rfl⟩
      · exact ⟨rfl, rfl⟩
    · exact ⟨rfl, rfl⟩

theorem addValue_names (ea : ExpressionAttributes) (v : AttrValue) :
    (ea.addValue v).2.names = ea.names ∧ (ea.addValue v).2.nextName = ea.nextName ∧
      (ea.addValue v).2.isReservedName = ea.isReservedName ∧
      (ea.addValue v).2.isValidName = ea.isValidName ∧
      (ea.addValue v).2.treatNameAsPath = ea.treatNameAsPath := by
  exact ⟨rfl, rfl, rfl, rfl, rfl⟩

theorem addValue_inv {ea : ExpressionAttributes} (v : AttrValue) (hv : ValuesInv ea) :
    ValuesInv (ea.addValue v).2 := by
  have hfree : hasKey ea.values (":v" ++ natDec ea.nextValue) = false := by
    rw [hasKey_eq_false_iff]
    intro q hq
    obtain ⟨i, hlt, hq1⟩ := hv q hq
    rw [hq1]
    intro hc
    exact absurd (append_natDec_inj hc) (by omega)
  intro q hq
  simp only [ExpressionAttributes.addValue, setKey_of_hasKey_false hfree] at hq
  have hnv : (ea.addValue v).2.nextValue = ea.nextValue + 1 := rfl
  rw [hnv]
  rcases List.mem_append.1 hq with hq | hq
  · obtain ⟨i, hlt, hq1⟩ := hv q hq
    exact ⟨i, by omega, hq1⟩
  · simp at hq
    exact ⟨ea.nextValue, by omega, by rw [hq]⟩

theorem addValue_values {ea : ExpressionAttributes} (v : AttrValue) (hv : ValuesInv ea) :
    (ea.addValue v).2.values = ea.values ++ [(":v" ++ natDec ea.nextValue, v)] := by
  have hfree : hasKey ea.values (":v" ++ natDec ea.nextValue) = false := by
    rw [hasKey_eq_false_iff]
    intro q hq
    obtain ⟨i, hlt, hq1⟩ := hv q hq
    rw [hq1]
    intro hc
    exact absurd (append_natDec_inj hc) (by omega)
  simp [ExpressionAttributes.addValue, setKey_of_hasKey_false hfree]

/-! ### The segment pass of `addPath` -/

theorem addSegStep_eq (acc : List String × ExpressionAttributes) (curr : String) :
    addSegStep acc curr =
      (acc.1 ++ [(addSegOne acc.2 curr).1], (addSegOne acc.2 curr).2) := by
  unfold addSegStep addSegOne
  by_cases h : endsWithChar ']' curr
  · simp only [h, if_true]
    cases hidx : strIdxOf '[' curr <;> simp [hidx]
  · simp [h]

theorem addSegs_cons (ea : ExpressionAttributes) (s : String) (ss : List String) :
    addSegs ea (s :: ss) =
      ((addSegOne ea s).1 :: (addSegs (addSegOne ea s).2 ss).1,
        (addSegs (addSegOne ea s).2 ss).2) := rfl

theorem foldl_addSegStep :
    ∀ (segs : List String) (l : List String) (ea : ExpressionAttributes),
      segs.foldl addSegStep (l, ea) = (l ++ (addSegs ea segs).1, (addSegs ea segs).2) := by
  intro segs
  induction segs with
  | nil =>
    intro l ea
    simp [addSegs]
  | cons s ss ih =>
    intro l ea
    rw [List.foldl_cons, addSegStep_eq]
    rw [ih]
    rw [addSegs_cons]
    simp

theorem addPath_eq_addSegs {ea : ExpressionAttributes} (p : String)
    (ht : ea.treatNameAsPath = true) :
    ea.addPath p =
      (jsJoin '.' (addSegs ea (jsSplit '.' p)).1, (addSegs ea (jsSplit '.' p)).2) := by
  unfold ExpressionAttributes.addPath
  rw [ht]
  simp only [if_true]
  rw [foldl_addSegStep]
  simp

theorem addSegOne_eq (ea : ExpressionAttributes) (curr : String) :
    addSegOne ea curr =
      ((ea.addName (segName curr)).1 ++ segTail curr, (ea.addName (segName curr)).2) := by
  unfold addSegOne segName segTail
  by_cases h : endsWithChar ']' curr
  · simp only [h, if_true]
    cases hidx : strIdxOf '[' curr <;> simp [hidx]
  · simp [h, str_append_empty]

/-! ### State evolution under request processing -/

theorem futureOf_trans {a b c : ExpressionAttributes} (h1 : FutureOf a b)
    (h2 : FutureOf b c) : FutureOf a c :=
  fun n x hx => h2 n x (h1 n x hx)

theorem addName_valuesInv {ea : ExpressionAttributes} (n : String) (hv : ValuesInv ea) :
    ValuesInv (ea.addName n).2 := by
  intro q hq
  rw [(addName_values ea n).1] at hq
  rw [(addName_values ea n).2]
  exact hv q hq

theorem addSegs_state :
    ∀ (segs : List String) {ea : ExpressionAttributes}, DefaultPreds ea → NamesInv ea →
      DefaultPreds (addSegs ea segs).2 ∧ NamesInv (addSegs ea segs).2 ∧
        FutureOf ea (addSegs ea segs).2 := by
  intro segs
  induction segs with
  | nil =>
    intro ea hd hi
    exact ⟨hd, hi, fun _ _ hx => hx⟩
  | cons s ss ih =>
    intro ea hd hi
    rw [addSegs_cons]
    have hd1 : DefaultPreds (addSegOne ea s).2 := by
      rw [addSegOne_eq]
      exact addName_preds _ hd
    have hi1 : NamesInv (addSegOne ea s).2 := by
      rw [addSegOne_eq]
      exact addName_inv _ hd hi
    have hf1 : FutureOf ea (addSegOne ea s).2 := by
      rw [addSegOne_eq]
      exact addName_future _ hd hi
    obtain ⟨hd2, hi2, hf2⟩ := ih hd1 hi1
    exact ⟨hd2, hi2, futureOf_trans hf1 hf2⟩

theorem addSegs_values :
    ∀ (segs : List String) (ea : ExpressionAttributes),
      (addSegs ea segs).2.values = ea.values ∧
        (addSegs ea segs).2.nextValue = ea.nextValue := by
  intro segs
  induction segs with
  | nil =>
    intro ea
    exact ⟨rfl, rfl⟩
  | cons s ss ih =>
    intro ea
    rw [addSegs_cons]
    obtain ⟨h1, h2⟩ := ih (addSegOne ea s).2
    constructor
    · rw [h1, addSegOne_eq]
      exact (addName_values ea (segName s)).1
    · rw [h2, addSegOne_eq]
      exact (addName_values ea (segName s)).2

theorem addPath_state {ea : ExpressionAttributes} (p : String) (hd : DefaultPreds ea)
    (hi : NamesInv ea) :
    DefaultPreds (ea.addPath p).2 ∧ NamesInv (ea.addPath p).2 ∧
      FutureOf ea (ea.addPath p).2 := by
  rw [addPath_eq_addSegs p hd.2.2]
  exact addSegs_state _ hd hi

theorem addPath_valuesInv {ea : ExpressionAttributes} (p : String) (hd : DefaultPreds ea)
    (hv : ValuesInv ea) : ValuesInv (ea.addPath p).2 := by
  rw [addPath_eq_addSegs p hd.2.2]
  intro q hq
  rw [(addSegs_values (jsSplit '.' p) ea).1] at hq
  rw [(addSegs_values (jsSplit '.' p) ea).2]
  exact hv q hq

theorem addValue_preds {ea : ExpressionAttributes} (v : AttrValue) (hd : DefaultPreds ea) :
    DefaultPreds (ea.addValue v).2 :=
  ⟨hd.1, hd.2.1, hd.2.2⟩

theorem runReq_state {ea : ExpressionAttributes} (r : InternReq) (hd : DefaultPreds ea)
    (hi : NamesInv ea) (hv : ValuesInv ea) :
    DefaultPreds (runReq ea r).2 ∧ NamesInv (runReq ea r).2 ∧ ValuesInv (runReq ea r).2 ∧
      FutureOf ea (runReq ea r).2 := by
  cases r with
  | name n =>
    exact ⟨addName_preds n hd, addName_inv n hd hi, addName_valuesInv n hv,
      addName_future n hd hi⟩
  | path p =>
    obtain ⟨h1, h2, h3⟩ := addPath_state p hd hi
    exact ⟨h1, h2, addPath_valuesInv p hd hv, h3⟩
  | value v =>
    exact ⟨addValue_preds v hd, hi, addValue_inv v hv, fun _ _ hx => hx⟩

theorem runReqs_cons (ea : ExpressionAttributes) (r : InternReq) (l : List InternReq) :
    runReqs ea (r :: l) = runReqs (runReq ea r).2 l := rfl

theorem runReqs_append (ea : ExpressionAttributes) (l1 l2 : List InternReq) :
    runReqs ea (l1 ++ l2) = runReqs (runReqs ea l1) l2 := by
  simp [runReqs, List.foldl_append]

theorem runReqs_state :
    ∀ (l : List InternReq) {ea : ExpressionAttributes},
      DefaultPreds ea → NamesInv ea → ValuesInv ea →
      DefaultPreds (runReqs ea l) ∧ NamesInv (runReqs ea l) ∧ ValuesInv (runReqs ea l) ∧
        FutureOf ea (runReqs ea l) := by
  intro l
  induction l with
  | nil =>
    intro ea hd hi hv
    exact ⟨hd, hi, hv, fun _ _ hx => hx⟩
  | cons r rest ih =>
    intro ea hd hi hv
    rw [runReqs_cons]
    obtain ⟨hd1, hi1, hv1, hf1⟩ := runReq_state r hd hi hv
    obtain ⟨hd2, hi2, hv2, hf2⟩ := ih hd1 hi1 hv1
    exact ⟨hd2, hi2, hv2, futureOf_trans hf1 hf2⟩

theorem initEA_preds : DefaultPreds initEA :=
  ⟨fun _ => rfl, fun _ => rfl, rfl⟩

theorem initEA_namesInv : NamesInv initEA := by
  constructor
  · intro q hq
    simp [initEA] at hq
  · simp [initEA]

theorem initEA_valuesInv : ValuesInv initEA := by
  intro q hq
  simp [initEA] at hq

/-! ### Aliases handed back are the final aliases -/

theorem addName_reply_final {ea sFin : ExpressionAttributes} {n : String}
    (hd : DefaultPreds ea) (hi : NamesInv ea) (hfut : FutureOf (ea.addName n).2 sFin) :
    lookupAliasFor sFin.names n = some (ea.addName n).1 :=
  hfut n _ (addName_lookup_self n hd hi)

theorem addSegs_reply_final :
    ∀ (segs : List String) {ea sFin : ExpressionAttributes},
      DefaultPreds ea → NamesInv ea → FutureOf (addSegs ea segs).2 sFin →
      (addSegs ea segs).1 = segs.map (segAliased sFin) ∧
        ∀ s ∈ segs, (lookupAliasFor sFin.names (segName s)).isSome = true := by
  intro segs
  induction segs with
  | nil =>
    intro ea sFin hd hi hfut
    refine ⟨rfl, ?_⟩
    intro s hs
    simp at hs
  | cons s ss ih =>
    intro ea sFin hd hi hfut
    rw [addSegs_cons] at hfut ⊢
    have hd1 : DefaultPreds (addSegOne ea s).2 := by
      rw [addSegOne_eq]
      exact addName_preds _ hd
    have hi1 : NamesInv (addSegOne ea s).2 := by
      rw [addSegOne_eq]
      exact addName_inv _ hd hi
    obtain ⟨hrest, hmem⟩ := ih hd1 hi1 hfut
    have hfut1 : FutureOf (addSegOne ea s).2 sFin :=
      futureOf_trans (addSegs_state ss hd1 hi1).2.2 hfut
    have hfutN : FutureOf (ea.addName (segName s)).2 sFin := by
      have he : (addSegOne ea s).2 = (ea.addName (segName s)).2 := by
        rw [addSegOne_eq]
      rw [he] at hfut1
      exact hfut1
    have hlook : lookupAliasFor sFin.names (segName s) = some (ea.addName (segName s)).1 :=
      addName_reply_final hd hi hfutN
    constructor
    · dsimp only
      rw [List.map_cons]
      have hhead : (addSegOne ea s).1 = segAliased sFin s := by
        rw [addSegOne_eq]
        dsimp only
        unfold segAliased aliasOfD
        rw [hlook]
        rfl
      rw [hhead, hrest]
    · intro x hx
      rcases List.mem_cons.1 hx with hx | hx
      · rw [hx, hlook]
        rfl
      · exact hmem x hx

/-- C1.  Name dedup: over any sequence of `addPath`/`addName`/`addValue` requests on a
fresh default-configured `ExpressionAttributes`, the exported names map holds each raw
name under exactly one alias (raw names pairwise distinct), every name requested — as a
plain name or inside any dotted segment — is present in the final map, a plain-name
request returns exactly the alias the final map assigns that raw name, and a path
request returns the dot-join of its segments rendered with those same final aliases. -/
theorem spec_c1 (l1 l2 : List InternReq) (r : InternReq) :
    (((runReqs initEA (l1 ++ r :: l2)).names.map Prod.snd).Nodup) ∧
    (∀ n ∈ reqNames r,
      (lookupAliasFor (runReqs initEA (l1 ++ r :: l2)).names n).isSome = true) ∧
    (∀ n, r = InternReq.name n →
      (runReq (runReqs initEA l1) r).1 = aliasOfD (runReqs initEA (l1 ++ r :: l2)) n) ∧
    (∀ p, r = InternReq.path p →
      (runReq (runReqs initEA l1) r).1 =
        jsJoin '.' ((jsSplit '.' p).map (segAliased (runReqs initEA (l1 ++ r :: l2))))) := by
  obtain ⟨hd1, hi1, hv1, hf1⟩ :=
    runReqs_state l1 initEA_preds initEA_namesInv initEA_valuesInv
  obtain ⟨hd2, hi2, hv2, hf2⟩ := runReq_state r hd1 hi1 hv1
  obtain ⟨hd3, hi3, hv3, hf3⟩ := runReqs_state l2 hd2 hi2 hv2
  have hsplit : runReqs initEA (l1 ++ r :: l2) =
      runReqs (runReq (runReqs initEA l1) r).2 l2 := by
    rw [runReqs_append, runReqs_cons]
  refine ⟨?_, ?_, ?_, ?_⟩
  · rw [hsplit]
    exact hi3.2
  · intro n hn
    cases r with
    | name m =>
      simp [reqNames] at hn
      subst hn
      rw [hsplit]
      rw [addName_reply_final hd1 hi1 hf3]
      rfl
    | path p =>
      simp [reqNames] at hn
      obtain ⟨s, hs, rfl⟩ := hn
      rw [hsplit]
      have he : (runReq (runReqs initEA l1) (InternReq.path p)).2 =
          (addSegs (runReqs initEA l1) (jsSplit '.' p)).2 := by
        show ((runReqs initEA l1).addPath p).2 = _
        rw [addPath_eq_addSegs p hd1.2.2]
      rw [he] at hf3
      obtain ⟨_, hmem⟩ := addSegs_reply_final (jsSplit '.' p) hd1 hi1 hf3
      rw [he]
      exact hmem s hs
    | value v =>
      simp [reqNames] at hn
  · intro n hr
    subst hr
    rw [hsplit]
    show ((runReqs initEA l1).addName n).1 = _
    unfold aliasOfD
    rw [addName_reply_final hd1 hi1 hf3]
    rfl
  · intro p hr
    subst hr
    rw [hsplit]
    show ((runReqs initEA l1).addPath p).1 = _
    rw [addPath_eq_addSegs p hd1.2.2]
    have he : (runReq (runReqs initEA l1) (InternReq.path p)).2 =
        (addSegs (runReqs initEA l1) (jsSplit '.' p)).2 := by
      show ((runReqs initEA l1).addPath p).2 = _
      rw [addPath_eq_addSegs p hd1.2.2]
    rw [he] at hf3
    obtain ⟨hlist, _⟩ := addSegs_reply_final (jsSplit '.' p) hd1 hi1 hf3
    dsimp only
    rw [hlist, ← he]

theorem spec_c1_witness :
    (((runReqs initEA
        ([InternReq.path "a.b"] ++ InternReq.name "b" :: [InternReq.value (AttrValue.num 1)])).names.map
          Prod.snd).Nodup) ∧
    (lookupAliasFor (runReqs initEA
        ([InternReq.path "a.b"] ++ InternReq.name "b" :: [InternReq.value (AttrValue.num 1)])).names
        "b").isSome = true ∧
    (runReq (runReqs initEA [InternReq.path "a.b"]) (InternReq.name "b")).1 =
      aliasOfD (runReqs initEA
        ([InternReq.path "a.b"] ++ InternReq.name "b" :: [InternReq.value (AttrValue.num 1)])) "b" := by
  obtain ⟨h1, h2, h3, _⟩ :=
    spec_c1 [InternReq.path "a.b"] [InternReq.value (AttrValue.num 1)] (InternReq.name "b")
  exact ⟨h1, h2 "b" (by decide), h3 "b" rfl⟩

/-! ### Value counter and value map lemmas -/

theorem countVals_append (a b : List InternReq) :
    countVals (a ++ b) = countVals a + countVals b := by
  simp [countVals, List.filter_append]

theorem countVals_cons_value (v : AttrValue) (l : List InternReq) :
    countVals (InternReq.value v :: l) = countVals l + 1 := by
  simp [countVals, List.filter]

theorem addPath_untouched (ea : ExpressionAttributes) (p : String) :
    (ea.addPath p).2.values = ea.values ∧ (ea.addPath p).2.nextValue = ea.nextValue := by
  unfold ExpressionAttributes.addPath
  by_cases ht : ea.treatNameAsPath
  · simp only [ht, if_true]
    rw [foldl_addSegStep]
    exact ⟨(addSegs_values _ ea).1, (addSegs_values _ ea).2⟩
  · simp only [ht]
    simp
    exact addName_values ea p

theorem runReq_nextValue (ea : ExpressionAttributes) (r : InternReq) :
    (runReq ea r).2.nextValue = ea.nextValue + countVals [r] := by
  cases r with
  | name n =>
    show (ea.addName n).2.nextValue = _
    rw [(addName_values ea n).2]
    simp [countVals, List.filter]
  | path p =>
    show (ea.addPath p).2.nextValue = _
    rw [(addPath_untouched ea p).2]
    simp [countVals, List.filter]
  | value v =>
    show ea.nextValue + 1 = _
    simp [countVals, List.filter]

theorem runReqs_nextValue :
    ∀ (l : List InternReq) (ea : ExpressionAttributes),
      (runReqs ea l).nextValue = ea.nextValue + countVals l := by
  intro l
  induction l with
  | nil =>
    intro ea
    simp [runReqs, countVals]
  | cons r rest ih =>
    intro ea
    rw [runReqs_cons, ih, runReq_nextValue]
    have : countVals (r :: rest) = countVals [r] + countVals rest := by
      have h := countVals_append [r] rest
      simpa using h
    omega

theorem addValue_lookup_self {ea : ExpressionAttributes} (v : AttrValue)
    (hv : ValuesInv ea) :
    lookupKey (ea.addValue v).2.values (":v" ++ natDec ea.nextValue) = some v := by
  rw [addValue_values v hv]
  have hnone : lookupKey ea.values (":v" ++ natDec ea.nextValue) = none := by
    rw [lookupKey_eq_none_iff]
    intro q hq
    obtain ⟨i, hlt, h1⟩ := hv q hq
    rw [h1]
    intro hc
    exact absurd (append_natDec_inj hc) (by omega)
  rw [lookupKey_append_right hnone]
  simp [lookupKey]

theorem runReq_values_future {ea : ExpressionAttributes} (r : InternReq)
    (hv : ValuesInv ea) {k : String} {v : AttrValue}
    (h : lookupKey ea.values k = some v) :
    lookupKey (runReq ea r).2.values k = some v := by
  cases r with
  | name n =>
    show lookupKey (ea.addName n).2.values k = some v
    rw [(addName_values ea n).1]
    exact h
  | path p =>
    show lookupKey (ea.addPath p).2.values k = some v
    rw [(addPath_untouched ea p).1]
    exact h
  | value w =>
    show lookupKey (ea.addValue w).2.values k = some v
    rw [addValue_values w hv]
    exact lookupKey_append_some h _

theorem runReq_valuesInv {ea : ExpressionAttributes} (r : InternReq) (hv : ValuesInv ea) :
    ValuesInv (runReq ea r).2 := by
  cases r with
  | name n =>
    exact addName_valuesInv n hv
  | path p =>
    show ValuesInv (ea.addPath p).2
    intro q hq
    rw [(addPath_untouched ea p).1] at hq
    rw [(addPath_untouched ea p).2]
    exact hv q hq
  | value w =>
    exact addValue_inv w hv

theorem runReqs_values_future :
    ∀ (l : List InternReq) {ea : ExpressionAttributes}, ValuesInv ea →
      ∀ {k : String} {v : AttrValue}, lookupKey ea.values k = some v →
        lookupKey (runReqs ea l).values k = some v := by
  intro l
  induction l with
  | nil =>
    intro ea _ k v h
    exact h
  | cons r rest ih =>
    intro ea hv k v h
    rw [runReqs_cons]
    exact ih (runReq_valuesInv r hv) (runReq_values_future r hv h)

theorem runReqs_valuesInv :
    ∀ (l : List InternReq) {ea : ExpressionAttributes}, ValuesInv ea →
      ValuesInv (runReqs ea l) := by
  intro l
  induction l with
  | nil =>
    intro ea hv
    exact hv
  | cons r rest ih =>
    intro ea hv
    rw [runReqs_cons]
    exact ih (runReq_valuesInv r hv)

/-- C2.  Value non-dedup: over any request sequence on a fresh instance, an `addValue`
call preceded by `k` prior `addValue` calls returns the fresh alias `:v<k>`; two
`addValue` calls — in particular two calls supplying equal values — return distinct
aliases, and the final exported values map still binds each alias to the value that
call supplied. -/
theorem spec_c2 (l1 l2 l3 : List InternReq) (v w : AttrValue) :
    (runReq (runReqs initEA l1) (InternReq.value v)).1 = ":v" ++ natDec (countVals l1) ∧
    (runReq (runReqs initEA (l1 ++ InternReq.value v :: l2)) (InternReq.value w)).1 =
      ":v" ++ natDec (countVals l1 + 1 + countVals l2) ∧
    ":v" ++ natDec (countVals l1) ≠ ":v" ++ natDec (countVals l1 + 1 + countVals l2) ∧
    lookupKey
      (runReqs initEA (l1 ++ InternReq.value v :: (l2 ++ InternReq.value w :: l3))).values
      (":v" ++ natDec (countVals l1)) = some v ∧
    lookupKey
      (runReqs initEA (l1 ++ InternReq.value v :: (l2 ++ InternReq.value w :: l3))).values
      (":v" ++ natDec (countVals l1 + 1 + countVals l2)) = some w := by
  have hval1 : (runReqs initEA l1).nextValue = countVals l1 := by
    have h0 : initEA.nextValue = 0 := rfl
    rw [runReqs_nextValue, h0]
    omega
  have hv1 : ValuesInv (runReqs initEA l1) := runReqs_valuesInv l1 initEA_valuesInv
  have hsplitA : ∀ (tail : List InternReq),
      runReqs initEA (l1 ++ InternReq.value v :: tail) =
        runReqs ((runReqs initEA l1).addValue v).2 tail := by
    intro tail
    rw [runReqs_append, runReqs_cons]
    rfl
  have hv2 : ValuesInv ((runReqs initEA l1).addValue v).2 := addValue_inv v hv1
  have hval2 : ∀ (tail : List InternReq),
      (runReqs initEA (l1 ++ InternReq.value v :: tail)).nextValue =
        countVals l1 + 1 + countVals tail := by
    intro tail
    rw [hsplitA tail, runReqs_nextValue]
    have hx : (((runReqs initEA l1).addValue v).2).nextValue =
        (runReqs initEA l1).nextValue + 1 := rfl
    rw [hx, hval1]
  refine ⟨?_, ?_, ?_, ?_, ?_⟩
  · show ":v" ++ natDec (runReqs initEA l1).nextValue = _
    rw [hval1]
  · show ":v" ++ natDec (runReqs initEA (l1 ++ InternReq.value v :: l2)).nextValue = _
    rw [hval2 l2]
  · intro hc
    exact absurd (append_natDec_inj hc) (by omega)
  · rw [hsplitA (l2 ++ InternReq.value w :: l3)]
    apply runReqs_values_future _ hv2
    rw [← hval1]
    exact addValue_lookup_self v hv1
  · rw [hsplitA (l2 ++ InternReq.value w :: l3), runReqs_append, runReqs_cons]
    have hvMid : ValuesInv (runReqs ((runReqs initEA l1).addValue v).2 l2) :=
      runReqs_valuesInv l2 hv2
    have hvalMid : (runReqs ((runReqs initEA l1).addValue v).2 l2).nextValue =
        countVals l1 + 1 + countVals l2 := by
      rw [← hsplitA l2]
      exact hval2 l2
    apply runReqs_values_future _ (runReq_valuesInv (InternReq.value w) hvMid)
    show lookupKey ((runReqs ((runReqs initEA l1).addValue v).2 l2).addValue w).2.values
      _ = some w
    rw [← hvalMid]
    exact addValue_lookup_self w hvMid

/-! ### Reserved and valid names (claim C5) -/

/-- C5 (amended).  A name the instance's predicate marks reserved is aliased as
`#<name>` — not `#n<seq>` — and the alias is recorded in the names map; a name marked
valid (and not reserved) is returned unchanged with the instance left untouched. -/
theorem spec_c5 (ea : ExpressionAttributes) (n : String) :
    (ea.isReservedName n = true →
      (ea.addName n).1 = "#" ++ n ∧
        lookupKey ((ea.addName n).2).names ("#" ++ n) = some n) ∧
    (ea.isReservedName n = false → ea.isValidName n = true → ea.addName n = (n, ea)) := by
  constructor
  · intro hres
    have hstep : ea.addName n =
        ("#" ++ n, { ea with names := setKey ea.names ("#" ++ n) n }) := by
      unfold ExpressionAttributes.addName
      simp only [hres, if_true]
    rw [hstep]
    exact ⟨rfl, lookupKey_setKey_self _ _ _⟩
  · intro hres hval
    unfold ExpressionAttributes.addName
    simp [hres, hval]

theorem spec_c5_witness :
    ({ initEA with isReservedName := fun s => s == "size" } :
        ExpressionAttributes).isReservedName "size" = true ∧
    (({ initEA with isReservedName := fun s => s == "size" } :
        ExpressionAttributes).addName "size").1 = "#size" ∧
    ({ initEA with isValidName := fun s => s == "name" } :
        ExpressionAttributes).addName "name" =
      ("name", { initEA with isValidName := fun s => s == "name" }) := by
  refine ⟨rfl, ?_, ?_⟩
  · exact ((spec_c5 { initEA with isReservedName := fun s => s == "size" } "size").1 rfl).1
  · exact (spec_c5 { initEA with isValidName := fun s => s == "name" } "name").2 rfl rfl

/-- C5 counterexample: with a predicate marking `size` reserved, `addName` hands back
the alias `#size`, which does not have the claimed `#n<seq>` shape. -/
theorem spec_c5_counterexample :
    (({ initEA with isReservedName := fun s => s == "size" } :
        ExpressionAttributes).addName "size").1 = "#size" ∧
    ¬ seqAliasForm "#size" := by
  constructor
  · rfl
  · rintro ⟨k, hk⟩
    have hd := congrArg String.data hk
    rw [strData_append] at hd
    have hd2 : ('#' :: 's' :: 'i' :: 'z' :: 'e' :: ([] : List Char)) =
        '#' :: 'n' :: (natDec k).data := hd
    injection hd2 with h1 h2
    injection h2 with h3 h4
    exact absurd h3 (by decide)

/-! ### `addPath` against the specification wording (claim C6) -/

theorem addSegOne_eq_spec (ea : ExpressionAttributes) (s : String)
    (h : endsWithChar ']' s = true → (strIdxOf '[' s).isSome = true) :
    addSegOne ea s = specSegAlias ea s := by
  unfold addSegOne specSegAlias
  by_cases he : endsWithChar ']' s
  · simp only [he, if_true]
    cases hidx : strIdxOf '[' s with
    | some i => rfl
    | none =>
      have hc := h he
      rw [hidx] at hc
      simp at hc
  · simp [he]

theorem addSegs_eq_spec :
    ∀ (segs : List String) (ea : ExpressionAttributes),
      (∀ seg ∈ segs, endsWithChar ']' seg = true → (strIdxOf '[' seg).isSome = true) →
      addSegs ea segs = specSegsMap ea segs := by
  intro segs
  induction segs with
  | nil =>
    intro ea _
    rfl
  | cons s ss ih =>
    intro ea h
    rw [addSegs_cons]
    have h1 : addSegOne ea s = specSegAlias ea s :=
      addSegOne_eq_spec ea s (h s (List.mem_cons_self s ss))
    show _ = specSegsMap ea (s :: ss)
    unfold specSegsMap
    rw [← h1, ih _ (fun seg hseg => h seg (List.mem_cons_of_mem s hseg))]

/-- C6.  Path aliasing: with path mode on, `addPath` splits on `.`, aliases each
segment's name portion (for a segment ending in `]` that contains a `[`, only the part
before the first `[`, the bracket tail re-appended verbatim), joins with `.`; with path
mode off, the entire string is aliased as one name — exactly the specification wording
`specAddPath`. -/
theorem spec_c6 (ea : ExpressionAttributes) (p : String)
    (h : ∀ seg ∈ jsSplit '.' p,
      endsWithChar ']' seg = true → (strIdxOf '[' seg).isSome = true) :
    ea.addPath p = specAddPath ea p := by
  unfold ExpressionAttributes.addPath specAddPath
  by_cases ht : ea.treatNameAsPath
  · simp only [ht, if_true]
    rw [foldl_addSegStep]
    rw [addSegs_eq_spec (jsSplit '.' p) ea h]
    simp
  · simp [ht]

theorem spec_c6_witness :
    (∀ seg ∈ jsSplit '.' "a.b[0].c",
      endsWithChar ']' seg = true → (strIdxOf '[' seg).isSome = true) ∧
    initEA.addPath "a.b[0].c" = specAddPath initEA "a.b[0].c" := by
  constructor
  · decide
  · exact spec_c6 initEA "a.b[0].c" (by decide)

/-! ### `splitTableData` partitions by key-schema names (claim C3) -/

theorem split_fold_key :
    ∀ (names : List String) (data : List (String × AttrValue))
      (acc : List (String × AttrValue) × List (String × AttrValue)) (n : String),
      names.Nodup →
      lookupKey (names.foldl (fun acc name =>
          match lookupKey data name with
          | none => acc
          | some v => (setKey acc.1 name v, eraseKey acc.2 name)) acc).1 n =
        if n ∈ names ∧ (lookupKey data n).isSome = true then lookupKey data n
        else lookupKey acc.1 n := by
  intro names
  induction names with
  | nil =>
    intro data acc n _
    simp
  | cons nm rest ih =>
    intro data acc n hnodup
    rw [List.foldl_cons]
    have hrest : rest.Nodup := (List.nodup_cons.1 hnodup).2
    have hnotmem : nm ∉ rest := (List.nodup_cons.1 hnodup).1
    cases hd : lookupKey data nm with
    | none =>
      rw [ih data acc n hrest]
      by_cases hn : n = nm
      · subst hn
        simp [hd, hnotmem]
      · simp [List.mem_cons, hn]
    | some v =>
      rw [ih data (setKey acc.1 nm v, eraseKey acc.2 nm) n hrest]
      by_cases hn : n = nm
      · subst hn
        simp [hd, hnotmem, lookupKey_setKey_self]
      · by_cases hr : n ∈ rest ∧ (lookupKey data n).isSome = true
        · simp only [hr, if_true]
          have : (n ∈ nm :: rest ∧ (lookupKey data n).isSome = true) := by
            exact ⟨List.mem_cons_of_mem nm hr.1, hr.2⟩
          simp [this]
        · simp only [hr, if_false]
          have hcons : ¬(n ∈ nm :: rest ∧ (lookupKey data n).isSome = true) := by
            intro hc
            rcases List.mem_cons.1 hc.1 with h | h
            · exact hn h
            · exact hr ⟨h, hc.2⟩
          simp only [hcons, if_false]
          exact lookupKey_setKey_ne acc.1 nm v hn

theorem split_fold_item :
    ∀ (names : List String) (data : List (String × AttrValue))
      (acc : List (String × AttrValue) × List (String × AttrValue)) (n : String),
      names.Nodup →
      lookupKey (names.foldl (fun acc name =>
          match lookupKey data name with
          | none => acc
          | some v => (setKey acc.1 name v, eraseKey acc.2 name)) acc).2 n =
        if n ∈ names ∧ (lookupKey data n).isSome = true then none
        else lookupKey acc.2 n := by
  intro names
  induction names with
  | nil =>
    intro data acc n _
    simp
  | cons nm rest ih =>
    intro data acc n hnodup
    rw [List.foldl_cons]
    have hrest : rest.Nodup := (List.nodup_cons.1 hnodup).2
    have hnotmem : nm ∉ rest := (List.nodup_cons.1 hnodup).1
    cases hd : lookupKey data nm with
    | none =>
      rw [ih data acc n hrest]
      by_cases hn : n = nm
      · subst hn
        simp [hd, hnotmem]
      · simp [List.mem_cons, hn]
    | some v =>
      rw [ih data (setKey acc.1 nm v, eraseKey acc.2 nm) n hrest]
      by_cases hn : n = nm
      · subst hn
        simp [hd, hnotmem, lookupKey_eraseKey_self]
      · by_cases hr : n ∈ rest ∧ (lookupKey data n).isSome = true
        · simp only [hr, if_true]
          have : (n ∈ nm :: rest ∧ (lookupKey data n).isSome = true) := by
            exact ⟨List.mem_cons_of_mem nm hr.1, hr.2⟩
          simp [this]
        · simp only [hr, if_false]
          have hcons : ¬(n ∈ nm :: rest ∧ (lookupKey data n).isSome = true) := by
            intro hc
            rcases List.mem_cons.1 hc.1 with h | h
            · exact hn h
            · exact hr ⟨h, hc.2⟩
          simp only [hcons, if_false]
          exact lookupKey_eraseKey_ne acc.2 nm hn

/-- C3.  `splitTableData` partition: the key map answers exactly the lookups of input
entries whose attribute name is a key-schema name, the item map exactly the remaining
lookups; the two are disjoint and together reproduce every lookup of the input map.
The split reads only the input attribute map, so it cannot depend on which field
produced an attribute. -/
theorem spec_c3 (t : Table) (data : List (String × AttrValue)) (n : String)
    (hk : (t.keySchema.map Prod.fst).Nodup) :
    (lookupKey (Model.splitTableData t data).1 n =
      if n ∈ t.keySchema.map Prod.fst then lookupKey data n else none) ∧
    (lookupKey (Model.splitTableData t data).2 n =
      if n ∈ t.keySchema.map Prod.fst then none else lookupKey data n) ∧
    ¬(lookupKey (Model.splitTableData t data).1 n ≠ none ∧
      lookupKey (Model.splitTableData t data).2 n ≠ none) ∧
    (lookupKey data n =
      if n ∈ t.keySchema.map Prod.fst then lookupKey (Model.splitTableData t data).1 n
      else lookupKey (Model.splitTableData t data).2 n) := by
  have e1 : lookupKey (Model.splitTableData t data).1 n =
      if n ∈ t.keySchema.map Prod.fst then lookupKey data n else none := by
    unfold Model.splitTableData
    rw [split_fold_key (t.keySchema.map Prod.fst) data ([], data) n hk]
    cases hlo : lookupKey data n <;>
      by_cases hm : n ∈ t.keySchema.map Prod.fst <;>
        simp [hlo, hm, lookupKey]
  have e2 : lookupKey (Model.splitTableData t data).2 n =
      if n ∈ t.keySchema.map Prod.fst then none else lookupKey data n := by
    unfold Model.splitTableData
    rw [split_fold_item (t.keySchema.map Prod.fst) data ([], data) n hk]
    cases hlo : lookupKey data n <;>
      by_cases hm : n ∈ t.keySchema.map Prod.fst <;>
        simp [hlo, hm]
  refine ⟨e1, e2, ?_, ?_⟩
  · rintro ⟨ha, hb⟩
    by_cases hm : n ∈ t.keySchema.map Prod.fst
    · rw [e2] at hb
      simp [hm] at hb
    · rw [e1] at ha
      simp [hm] at ha
  · by_cases hm : n ∈ t.keySchema.map Prod.fst
    · rw [e1]
      simp [hm]
    · rw [e2]
      simp [hm]

theorem spec_c3_witness :
    ((Table.mk "MainTable" [("P", KeyType.hash), ("S", KeyType.range)]).keySchema.map
      Prod.fst).Nodup ∧
    lookupKey (Model.splitTableData
      (Table.mk "MainTable" [("P", KeyType.hash), ("S", KeyType.range)])
      [("P", AttrValue.str "id1"), ("name", AttrValue.str "n")]).1 "P" =
      (if "P" ∈ (Table.mk "MainTable"
          [("P", KeyType.hash), ("S", KeyType.range)]).keySchema.map Prod.fst then
        lookupKey [("P", AttrValue.str "id1"), ("name", AttrValue.str "n")] "P"
      else none) := by
  refine ⟨by decide, ?_⟩
  exact (spec_c3 (Table.mk "MainTable" [("P", KeyType.hash), ("S", KeyType.range)])
    [("P", AttrValue.str "id1"), ("name", AttrValue.str "n")] "P" (by decide)).1

/-! ### What each request-building stage touches -/

theorem addAndParam_lookup_ne (conds : List Cond) (ea : ExpressionAttributes)
    (params : Params) {k : String} (h : k ≠ "ConditionExpression") :
    lookupKey (Condition.addAndParam conds ea params).2 k = lookupKey params k := by
  unfold Condition.addAndParam
  cases conds with
  | nil => rfl
  | cons c cs => exact lookupKey_setKey_ne _ _ _ h

theorem updAddParam_lookup_ne (item : Option UpdateMap) (ea : ExpressionAttributes)
    (params : Params) {k : String} (h : k ≠ "UpdateExpression") :
    lookupKey (Update.addParam item ea params).2 k = lookupKey params k := by
  unfold Update.addParam
  cases item with
  | none => rfl
  | some m =>
    dsimp only
    split
    · rfl
    · exact lookupKey_setKey_ne _ _ _ h

theorem addParams_lookup_ne (ea : ExpressionAttributes) (params : Params) {k : String}
    (h1 : k ≠ "ExpressionAttributeNames") (h2 : k ≠ "ExpressionAttributeValues") :
    lookupKey (ea.addParams params) k = lookupKey params k := by
  unfold ExpressionAttributes.addParams
  dsimp only
  split
  · rw [lookupKey_setKey_ne _ _ _ h2]
    split
    · rw [lookupKey_setKey_ne _ _ _ h1]
    · rfl
  · split
    · rw [lookupKey_setKey_ne _ _ _ h1]
    · rfl

theorem addParams_names_lookup (ea : ExpressionAttributes) (params : Params) :
    lookupKey (ea.addParams params) "ExpressionAttributeNames" =
      if ea.names.length > 0 then some (ParamValue.nameMap ea.names)
      else lookupKey params "ExpressionAttributeNames" := by
  unfold ExpressionAttributes.addParams
  dsimp only
  split
  · rw [lookupKey_setKey_ne _ _ _ (by decide)]
    split
    · exact lookupKey_setKey_self _ _ _
    · rfl
  · split
    · exact lookupKey_setKey_self _ _ _
    · rfl

theorem addParams_values_lookup (ea : ExpressionAttributes) (params : Params) :
    lookupKey (ea.addParams params) "ExpressionAttributeValues" =
      if ea.values.length > 0 then some (ParamValue.attrMap ea.values)
      else lookupKey params "ExpressionAttributeValues" := by
  unfold ExpressionAttributes.addParams
  dsimp only
  split
  · exact lookupKey_setKey_self _ _ _
  · split
    · rw [lookupKey_setKey_ne _ _ _ (by decide)]
    · rfl

/-! ### Whole-record write shape (claim C4) -/

/-- C4 (amended).  A whole-record write folds the key map into `Item`: with default
options `putParams` returns exactly `{ TableName, Item: {...key, ...item} }`, and no
separate `Key` field is present. -/
theorem spec_c4 (t : Table) (key item : List (String × AttrValue)) :
    Table.putParams t key item {} =
      [("TableName", ParamValue.str t.name),
        ("Item", ParamValue.attrMap (spreadMerge key item))] ∧
    lookupKey (Table.putParams t key item {}) "Key" = none := by
  constructor
  · rfl
  · show lookupKey [("TableName", ParamValue.str t.name),
      ("Item", ParamValue.attrMap (spreadMerge key item))] "Key" = none
    rfl

/-- C4 counterexample: at a concrete key and item map, the compiled put request has no
`Key` field at all, contradicting the claimed `{ Key, Item }` shape. -/
theorem spec_c4_counterexample :
    lookupKey (Table.putParams (Table.mk "MainTable" [("P", KeyType.hash)])
      [("P", AttrValue.str "id1")] [("name", AttrValue.str "n")] {}) "Key" = none ∧
    ¬ (lookupKey (Table.putParams (Table.mk "MainTable" [("P", KeyType.hash)])
        [("P", AttrValue.str "id1")] [("name", AttrValue.str "n")] {}) "Key" =
      some (ParamValue.attrMap [("P", AttrValue.str "id1")])) := by
  have hnone : lookupKey (Table.putParams (Table.mk "MainTable" [("P", KeyType.hash)])
      [("P", AttrValue.str "id1")] [("name", AttrValue.str "n")] {}) "Key" = none := rfl
  refine ⟨hnone, ?_⟩
  intro h
  rw [hnone] at h
  exact Option.noConfusion h

/-! ### Empty maps are omitted (claim C7) -/

/-- C7.  `addParams` attaches `ExpressionAttributeNames` exactly when the names map is
non-empty and `ExpressionAttributeValues` exactly when the values map is non-empty
(otherwise the input's binding, if any, is left as is); consequently an update whose
record compiled to an empty update map produces exactly `{ TableName, Key }` — no
update expression and no alias maps. -/
theorem spec_c7 (ea : ExpressionAttributes) (input : Params) (t : Table)
    (key : List (String × AttrValue)) :
    (lookupKey (ea.addParams input) "ExpressionAttributeNames" =
      if ea.names.length > 0 then some (ParamValue.nameMap ea.names)
      else lookupKey input "ExpressionAttributeNames") ∧
    (lookupKey (ea.addParams input) "ExpressionAttributeValues" =
      if ea.values.length > 0 then some (ParamValue.attrMap ea.values)
      else lookupKey input "ExpressionAttributeValues") ∧
    (Table.updateParams t key (some []) {} =
      [("TableName", ParamValue.str t.name), ("Key", ParamValue.attrMap key)]) := by
  exact ⟨addParams_names_lookup ea input, addParams_values_lookup ea input, rfl⟩

/-! ### Options cannot override identity fields (claim C10) -/

/-- C10.  For every options argument — including one whose `params` object carries its
own `TableName`, `Key` or `Item` — the spread happens before the identity fields are
written, so `getParams`/`deleteParams`/`updateParams` always carry the table's name and
the given key map, and `putParams` the table's name and the merged `Item`. -/
theorem spec_c10 (t : Table) (key item : List (String × AttrValue))
    (updItem : Option UpdateMap) (gOpts : GetOptions) (dOpts : DeleteOptions)
    (uOpts : UpdateOptions) (pOpts : PutOptions) :
    (lookupKey (Table.getParams t key gOpts) "TableName" = some (ParamValue.str t.name)) ∧
    (lookupKey (Table.getParams t key gOpts) "Key" = some (ParamValue.attrMap key)) ∧
    (lookupKey (Table.deleteParams t key dOpts) "TableName" =
      some (ParamValue.str t.name)) ∧
    (lookupKey (Table.deleteParams t key dOpts) "Key" = some (ParamValue.attrMap key)) ∧
    (lookupKey (Table.updateParams t key updItem uOpts) "TableName" =
      some (ParamValue.str t.name)) ∧
    (lookupKey (Table.updateParams t key updItem uOpts) "Key" =
      some (ParamValue.attrMap key)) ∧
    (lookupKey (Table.putParams t key item pOpts) "TableName" =
      some (ParamValue.str t.name)) ∧
    (lookupKey (Table.putParams t key item pOpts) "Item" =
      some (ParamValue.attrMap (spreadMerge key item))) := by
  refine ⟨?_, ?_, ?_, ?_, ?_, ?_, ?_, ?_⟩
  · unfold Table.getParams
    rw [lookupKey_setKey_ne _ _ _ (by decide)]
    exact lookupKey_setKey_self _ _ _
  · unfold Table.getParams
    exact lookupKey_setKey_self _ _ _
  · unfold Table.deleteParams
    dsimp only
    rw [addParams_lookup_ne _ _ (by decide) (by decide),
      addAndParam_lookup_ne _ _ _ (by decide),
      lookupKey_setKey_ne _ _ _ (by decide)]
    exact lookupKey_setKey_self _ _ _
  · unfold Table.deleteParams
    dsimp only
    rw [addParams_lookup_ne _ _ (by decide) (by decide),
      addAndParam_lookup_ne _ _ _ (by decide)]
    exact lookupKey_setKey_self _ _ _
  · unfold Table.updateParams
    dsimp only
    rw [addParams_lookup_ne _ _ (by decide) (by decide),
      addAndParam_lookup_ne _ _ _ (by decide),
      updAddParam_lookup_ne _ _ _ (by decide),
      lookupKey_setKey_ne _ _ _ (by decide)]
    exact lookupKey_setKey_self _ _ _
  · unfold Table.updateParams
    dsimp only
    rw [addParams_lookup_ne _ _ (by decide) (by decide),
      addAndParam_lookup_ne _ _ _ (by decide),
      updAddParam_lookup_ne _ _ _ (by decide)]
    exact lookupKey_setKey_self _ _ _
  · unfold Table.putParams
    dsimp only
    rw [addParams_lookup_ne _ _ (by decide) (by decide),
      addAndParam_lookup_ne _ _ _ (by decide),
      lookupKey_setKey_ne _ _ _ (by decide)]
    exact lookupKey_setKey_self _ _ _
  · unfold Table.putParams
    dsimp only
    rw [addParams_lookup_ne _ _ (by decide) (by decide),
      addAndParam_lookup_ne _ _ _ (by decide)]
    exact lookupKey_setKey_self _ _ _

/-! ### Clause buffers and expression assembly (claim C8) -/

theorem compileDirective_len (path : String) (d : Directive) (ea : ExpressionAttributes)
    (b : ClauseBuffers) :
    (compileDirective path d ea b).1.setB.length =
        b.setB.length + (if directiveKind d = ClauseKind.setK then 1 else 0) ∧
      (compileDirective path d ea b).1.removeB.length =
        b.removeB.length + (if directiveKind d = ClauseKind.removeK then 1 else 0) ∧
      (compileDirective path d ea b).1.addB.length =
        b.addB.length + (if directiveKind d = ClauseKind.addK then 1 else 0) ∧
      (compileDirective path d ea b).1.deleteB.length =
        b.deleteB.length + (if directiveKind d = ClauseKind.deleteK then 1 else 0) := by
  cases d with
  | setV v => simp [compileDirective, directiveKind]
  | inc src v => cases src <;> simp [compileDirective, directiveKind]
  | dec v => simp [compileDirective, directiveKind]
  | del => simp [compileDirective, directiveKind]
  | pathRef q => simp [compileDirective, directiveKind]
  | prependL v => simp [compileDirective, directiveKind]
  | appendL v => simp [compileDirective, directiveKind]
  | addToSet v => simp [compileDirective, directiveKind]
  | removeFromSet v => simp [compileDirective, directiveKind]

theorem countKind_cons (pd : String × Directive) (m : List (String × Directive))
    (k : ClauseKind) :
    countKind (pd :: m) k =
      (if directiveKind pd.2 = k then 1 else 0) + countKind m k := by
  by_cases h : directiveKind pd.2 = k
  · simp [countKind, List.filter, h]
    omega
  · have hb : (directiveKind pd.2 == k) = false := by simp [h]
    simp [countKind, List.filter, hb, h]

theorem compileUpdate_len :
    ∀ (m : UpdateMap) (ea : ExpressionAttributes) (b : ClauseBuffers),
      (m.foldl (fun acc pd => compileDirective pd.1 pd.2 acc.2 acc.1) (b, ea)).1.setB.length =
          b.setB.length + countKind m ClauseKind.setK ∧
        (m.foldl (fun acc pd =>
            compileDirective pd.1 pd.2 acc.2 acc.1) (b, ea)).1.removeB.length =
          b.removeB.length + countKind m ClauseKind.removeK ∧
        (m.foldl (fun acc pd =>
            compileDirective pd.1 pd.2 acc.2 acc.1) (b, ea)).1.addB.length =
          b.addB.length + countKind m ClauseKind.addK ∧
        (m.foldl (fun acc pd =>
            compileDirective pd.1 pd.2 acc.2 acc.1) (b, ea)).1.deleteB.length =
          b.deleteB.length + countKind m ClauseKind.deleteK := by
  intro m
  induction m with
  | nil =>
    intro ea b
    simp [countKind]
  | cons pd rest ih =>
    intro ea b
    rw [List.foldl_cons]
    obtain ⟨i1, i2, i3, i4⟩ :=
      ih (compileDirective pd.1 pd.2 ea b).2 (compileDirective pd.1 pd.2 ea b).1
    obtain ⟨d1, d2, d3, d4⟩ := compileDirective_len pd.1 pd.2 ea b
    refine ⟨?_, ?_, ?_, ?_⟩
    · rw [i1, d1, countKind_cons]
      omega
    · rw [i2, d2, countKind_cons]
      omega
    · rw [i3, d3, countKind_cons]
      omega
    · rw [i4, d4, countKind_cons]
      omega

theorem countKind_pos {m : UpdateMap} {k : ClauseKind}
    (h : ∃ pd ∈ m, directiveKind pd.2 = k) : 0 < countKind m k := by
  obtain ⟨pd, hmem, hk⟩ := h
  unfold countKind
  rw [List.length_pos]
  intro hempty
  have : pd ∈ m.filter (fun pd => directiveKind pd.2 == k) := by
    rw [List.mem_filter]
    exact ⟨hmem, by simp [hk]⟩
  rw [hempty] at this
  simp at this

theorem buildExpr_all_nonempty (b : ClauseBuffers) (h1 : b.setB ≠ [])
    (h2 : b.removeB ≠ []) (h3 : b.addB ≠ []) (h4 : b.deleteB ≠ []) :
    buildUpdateExpression b =
      joinWith " "
        ["SET " ++ joinWith ", " b.setB, "REMOVE " ++ joinWith ", " b.removeB,
          "ADD " ++ joinWith ", " b.addB, "DELETE " ++ joinWith ", " b.deleteB] := by
  obtain ⟨x1, t1, e1⟩ := List.exists_cons_of_ne_nil h1
  obtain ⟨x2, t2, e2⟩ := List.exists_cons_of_ne_nil h2
  obtain ⟨x3, t3, e3⟩ := List.exists_cons_of_ne_nil h3
  obtain ⟨x4, t4, e4⟩ := List.exists_cons_of_ne_nil h4
  unfold buildUpdateExpression clausePart
  rw [e1, e2, e3, e4]
  rfl

/-- C8 (spec-modelled).  Clause ordering: whatever order the directives of an update
record are supplied in, when the record contains at least one directive of each clause
kind the compiled expression lists its four clauses in the fixed order SET, REMOVE,
ADD, DELETE, each clause's entries comma-joined and the clauses space-separated; each
clause buffer holds exactly one fragment per directive of its kind. -/
theorem spec_c8 (m : UpdateMap) (ea : ExpressionAttributes)
    (h : ∀ k : ClauseKind, ∃ pd ∈ m, directiveKind pd.2 = k) :
    buildUpdateExpression (compileUpdate m ea).1 =
      joinWith " "
        ["SET " ++ joinWith ", " (compileUpdate m ea).1.setB,
          "REMOVE " ++ joinWith ", " (compileUpdate m ea).1.removeB,
          "ADD " ++ joinWith ", " (compileUpdate m ea).1.addB,
          "DELETE " ++ joinWith ", " (compileUpdate m ea).1.deleteB] ∧
    (compileUpdate m ea).1.setB.length = countKind m ClauseKind.setK ∧
    (compileUpdate m ea).1.removeB.length = countKind m ClauseKind.removeK ∧
    (compileUpdate m ea).1.addB.length = countKind m ClauseKind.addK ∧
    (compileUpdate m ea).1.deleteB.length = countKind m ClauseKind.deleteK := by
  obtain ⟨c1, c2, c3, c4⟩ := compileUpdate_len m ea {}
  have z1 : ({} : ClauseBuffers).setB.length = 0 := rfl
  have z2 : ({} : ClauseBuffers).removeB.length = 0 := rfl
  have z3 : ({} : ClauseBuffers).addB.length = 0 := rfl
  have z4 : ({} : ClauseBuffers).deleteB.length = 0 := rfl
  rw [z1] at c1
  rw [z2] at c2
  rw [z3] at c3
  rw [z4] at c4
  have hc1 : (compileUpdate m ea).1.setB.length = countKind m ClauseKind.setK := by
    rw [compileUpdate] at *
    omega
  have hc2 : (compileUpdate m ea).1.removeB.length = countKind m ClauseKind.removeK := by
    rw [compileUpdate] at *
    omega
  have hc3 : (compileUpdate m ea).1.addB.length = countKind m ClauseKind.addK := by
    rw [compileUpdate] at *
    omega
  have hc4 : (compileUpdate m ea).1.deleteB.length = countKind m ClauseKind.deleteK := by
    rw [compileUpdate] at *
    omega
  refine ⟨?_, hc1, hc2, hc3, hc4⟩
  apply buildExpr_all_nonempty
  · have := countKind_pos (h ClauseKind.setK)
    intro he
    rw [he] at hc1
    simp at hc1
    omega
  · have := countKind_pos (h ClauseKind.removeK)
    intro he
    rw [he] at hc2
    simp at hc2
    omega
  · have := countKind_pos (h ClauseKind.addK)
    intro he
    rw [he] at hc3
    simp at hc3
    omega
  · have := countKind_pos (h ClauseKind.deleteK)
    intro he
    rw [he] at hc4
    simp at hc4
    omega

theorem spec_c8_witness :
    (∀ k : ClauseKind, ∃ pd ∈
        [("interests", Directive.removeFromSet (AttrValue.strSet ["soccer"])),
          ("modified", Directive.addToSet (AttrValue.numSet [3])),
          ("desc", Directive.del),
          ("name", Directive.setV (AttrValue.str "x"))],
      directiveKind pd.2 = k) ∧
    buildUpdateExpression (compileUpdate
        [("interests", Directive.removeFromSet (AttrValue.strSet ["soccer"])),
          ("modified", Directive.addToSet (AttrValue.numSet [3])),
          ("desc", Directive.del),
          ("name", Directive.setV (AttrValue.str "x"))] initEA).1 =
      "SET #n3 = :v2 REMOVE #n2 ADD #n1 :v1 DELETE #n0 :v0" := by
  have hk : ∀ k : ClauseKind, ∃ pd ∈
      [("interests", Directive.removeFromSet (AttrValue.strSet ["soccer"])),
        ("modified", Directive.addToSet (AttrValue.numSet [3])),
        ("desc", Directive.del),
        ("name", Directive.setV (AttrValue.str "x"))],
      directiveKind pd.2 = k := by
    intro k
    cases k <;> decide
  refine ⟨hk, ?_⟩
  have h := (spec_c8
    [("interests", Directive.removeFromSet (AttrValue.strSet ["soccer"])),
      ("modified", Directive.addToSet (AttrValue.numSet [3])),
      ("desc", Directive.del),
      ("name", Directive.setV (AttrValue.str "x"))] initEA hk).1
  rw [h]
  rfl

/-! ### Split and join round trip (claim C9) -/

theorem splitChar_ne_nil (sep : Char) : ∀ l : List Char, splitChar sep l ≠ [] := by
  intro l
  cases l with
  | nil => simp [splitChar]
  | cons c rest =>
    unfold splitChar
    cases h : splitChar sep rest with
    | nil => simp
    | cons t ts => by_cases hc : c = sep <;> simp [hc]

theorem joinChar_splitChar (sep : Char) :
    ∀ l : List Char, joinChar sep (splitChar sep l) = l := by
  intro l
  induction l with
  | nil => rfl
  | cons c rest ih =>
    unfold splitChar
    cases h : splitChar sep rest with
    | nil => exact absurd h (splitChar_ne_nil sep rest)
    | cons t ts =>
      rw [h] at ih
      by_cases hc : c = sep
      · simp only [hc, if_true]
        show joinChar sep ([] :: t :: ts) = sep :: rest
        rw [show joinChar sep ([] :: t :: ts) = [] ++ sep :: joinChar sep (t :: ts) from rfl]
        rw [ih]
        rfl
      · simp only [hc, if_false]
        cases ts with
        | nil =>
          show c :: t = c :: rest
          have ht : t = rest := ih
          rw [ht]
        | cons u us =>
          show (c :: t) ++ sep :: joinChar sep (u :: us) = c :: rest
          have ht : t ++ sep :: joinChar sep (u :: us) = rest := ih
          rw [List.cons_append, ht]

theorem joinChar_dropLast (sep : Char) :
    ∀ L : List (List Char), 2 ≤ L.length →
      joinChar sep L.dropLast ++ sep :: L.getLastD [] = joinChar sep L := by
  intro L
  induction L with
  | nil =>
    intro h
    simp at h
  | cons x rest ih =>
    intro h
    cases rest with
    | nil => simp at h
    | cons y ys =>
      cases ys with
      | nil => rfl
      | cons z zs =>
        have ih2 := ih (by simp)
        have hlast : (x :: y :: z :: zs).getLastD ([] : List Char) =
            (y :: z :: zs).getLastD [] := by
          rw [List.getLastD_eq_getLast?, List.getLastD_eq_getLast?,
            List.getLast?_cons_cons]
        have hdrop : (x :: y :: z :: zs).dropLast = x :: (y :: z :: zs).dropLast := rfl
        rw [hdrop, hlast]
        have hjoin : joinChar sep (x :: (y :: z :: zs).dropLast) =
            x ++ sep :: joinChar sep ((y :: z :: zs).dropLast) := rfl
        rw [hjoin]
        rw [show joinChar sep (x :: y :: z :: zs) =
          x ++ sep :: joinChar sep (y :: z :: zs) from rfl]
        rw [← ih2]
        simp [List.append_assoc]

theorem split_join_two (sep : Char) (cl : List Char)
    (h2 : 2 ≤ (splitChar sep cl).length) :
    joinChar sep ((splitChar sep cl).dropLast) ++ sep :: (splitChar sep cl).getLastD [] =
      cl := by
  rw [joinChar_dropLast sep (splitChar sep cl) h2]
  exact joinChar_splitChar sep cl

theorem getLastD_map_mk :
    ∀ L : List (List Char), ((L.map String.mk).getLastD "").data = L.getLastD [] := by
  intro L
  induction L with
  | nil => rfl
  | cons a l ih =>
    cases l with
    | nil => rfl
    | cons b m =>
      have h1 : ((a :: b :: m).map String.mk).getLastD "" =
          ((b :: m).map String.mk).getLastD "" := by
        simp only [List.map_cons]
        rw [List.getLastD_eq_getLast?, List.getLastD_eq_getLast?, List.getLast?_cons_cons]
      have h2 : (a :: b :: m).getLastD ([] : List Char) = (b :: m).getLastD [] := by
        rw [List.getLastD_eq_getLast?, List.getLastD_eq_getLast?, List.getLast?_cons_cons]
      rw [h1, h2]
      exact ih

theorem dropLast_map_mk_data (L : List (List Char)) :
    (((L.map String.mk).dropLast).map String.data) = L.dropLast := by
  have h1 : (L.map String.mk).dropLast = (L.dropLast).map String.mk :=
    (List.map_dropLast _ _).symm
  rw [h1, List.map_map]
  have hid : (String.data ∘ String.mk) = id := funext (fun _ => rfl)
  rw [hid, List.map_id]

/-- C9 (spec-modelled).  Split-key round trip: for every model string written through a
2-attribute split-key field with distinct attribute names, extracting from the
projected attributes returns the original string; one token writes only the first
attribute, two or more tokens write the re-joined leading tokens into the first
attribute and the last token into the second. -/
theorem spec_c9 (f : SplitField) (s : String) (hne : f.attr1 ≠ f.attr2) :
    SplitField.extract f (SplitField.project f s) = some s ∧
    ((jsSplit f.sep s).length ≤ 1 →
      SplitField.project f s = [(f.attr1, AttrValue.str s)]) ∧
    (2 ≤ (jsSplit f.sep s).length →
      SplitField.project f s =
        [(f.attr1, AttrValue.str (jsJoin f.sep (jsSplit f.sep s).dropLast)),
          (f.attr2, AttrValue.str ((jsSplit f.sep s).getLastD ""))]) := by
  have hproj1 : (jsSplit f.sep s).length ≤ 1 →
      SplitField.project f s = [(f.attr1, AttrValue.str s)] := by
    intro hlen
    unfold SplitField.project
    rw [if_pos hlen]
  have hproj2 : ¬((jsSplit f.sep s).length ≤ 1) →
      SplitField.project f s =
        [(f.attr1, AttrValue.str (jsJoin f.sep (jsSplit f.sep s).dropLast)),
          (f.attr2, AttrValue.str ((jsSplit f.sep s).getLastD ""))] := by
    intro hlen
    unfold SplitField.project
    rw [if_neg hlen]
  refine ⟨?_, hproj1, fun h2 => hproj2 (by omega)⟩
  by_cases hlen : (jsSplit f.sep s).length ≤ 1
  · rw [hproj1 hlen]
    unfold SplitField.extract
    have h1 : lookupKey [(f.attr1, AttrValue.str s)] f.attr1 = some (AttrValue.str s) := by
      simp [lookupKey]
    have h2 : lookupKey [(f.attr1, AttrValue.str s)] f.attr2 = none := by
      rw [lookupKey_cons, if_neg (fun hc => hne hc)]
      rfl
    rw [h1, h2]
    show some (jsJoin f.sep [s]) = some s
    unfold jsJoin
    show some (String.mk (joinChar f.sep [s.data])) = some s
    rfl
  · rw [hproj2 hlen]
    unfold SplitField.extract
    have h1 : lookupKey
        [(f.attr1, AttrValue.str (jsJoin f.sep (jsSplit f.sep s).dropLast)),
          (f.attr2, AttrValue.str ((jsSplit f.sep s).getLastD ""))] f.attr1 =
        some (AttrValue.str (jsJoin f.sep (jsSplit f.sep s).dropLast)) := by
      simp [lookupKey]
    have h2 : lookupKey
        [(f.attr1, AttrValue.str (jsJoin f.sep (jsSplit f.sep s).dropLast)),
          (f.attr2, AttrValue.str ((jsSplit f.sep s).getLastD ""))] f.attr2 =
        some (AttrValue.str ((jsSplit f.sep s).getLastD "")) := by
      rw [lookupKey_cons, if_neg (fun hc => hne hc), lookupKey_cons, if_pos rfl]
    rw [h1, h2]
    show some (jsJoin f.sep
      [jsJoin f.sep (jsSplit f.sep s).dropLast, (jsSplit f.sep s).getLastD ""]) = some s
    have hgoal : jsJoin f.sep
        [jsJoin f.sep (jsSplit f.sep s).dropLast, (jsSplit f.sep s).getLastD ""] = s := by
      apply String.ext
      show joinChar f.sep
        [(jsJoin f.sep (jsSplit f.sep s).dropLast).data,
          ((jsSplit f.sep s).getLastD "").data] = s.data
      rw [show joinChar f.sep
          [(jsJoin f.sep (jsSplit f.sep s).dropLast).data,
            ((jsSplit f.sep s).getLastD "").data] =
        (jsJoin f.sep (jsSplit f.sep s).dropLast).data ++
          f.sep :: ((jsSplit f.sep s).getLastD "").data from rfl]
      have hA : (jsJoin f.sep (jsSplit f.sep s).dropLast).data =
          joinChar f.sep ((splitChar f.sep s.data).dropLast) := by
        unfold jsJoin jsSplit
        show joinChar f.sep
          ((((splitChar f.sep s.data).map String.mk).dropLast).map String.data) = _
        rw [dropLast_map_mk_data]
      have hB : ((jsSplit f.sep s).getLastD "").data =
          (splitChar f.sep s.data).getLastD [] := by
        unfold jsSplit
        exact getLastD_map_mk (splitChar f.sep s.data)
      rw [hA, hB]
      apply split_join_two
      have : (jsSplit f.sep s).length = (splitChar f.sep s.data).length := by
        unfold jsSplit
        simp
      omega
    rw [hgoal]

theorem spec_c9_witness :
    (SplitField.mk "P" "S" '.').attr1 ≠ (SplitField.mk "P" "S" '.').attr2 ∧
    SplitField.extract (SplitField.mk "P" "S" '.')
      (SplitField.project (SplitField.mk "P" "S" '.') "id1.id2.id3") =
      some "id1.id2.id3" := by
  refine ⟨by decide, ?_⟩
  exact (spec_c9 (SplitField.mk "P" "S" '.') "id1.id2.id3" (by decide)).1
